/-
Verification of the dlx-python reduction layer (sudoku.py / design.py).

The reduction layer is shallowly embedded: Python list/dict manipulation
becomes Lean list functions, Python ints become `Int` (or `Nat` where the
source only ever handles naturals), fallible operations (list indexing,
dict lookup, `int()` conversion) return `Option`.  The external collaborators
(the `dlx` exact-cover engine and the `pyncomb` subset oracle) are modelled
from their contracts in the specification: the oracle enumerates k-subsets
of the ground set in lexicographic order and ranks a subset by its position
in that enumeration; the engine records column declarations, appended rows
(returning indices in submission order) and forced rows.

The file is organised as: all definitions first, then all theorems.
-/
import Mathlib

namespace DlxPython

/-! ## Definitions -/

/-! ### Basic list helpers -/

/-- Python `range(a, b)` over integers, as a list of `Int`. -/
def rangeInt (a b : Int) : List Int :=
  (List.range (b - a).toNat).map (fun n : Nat => a + (n : Int))

/-- Python slice assignment `l[s:] = new`: the elements of `l` from
position `s` on are replaced by `new`.  A negative `s` counts from the end
of the list (clamped at 0); an `s` beyond the length appends at the end. -/
def pySliceFrom {α : Type} (l : List α) (s : Int) (new : List α) : List α :=
  l.take (if s < 0 then ((l.length : Int) + s).toNat else min s.toNat l.length) ++ new

/-! ### The subset oracle (modelled from the spec)

Modelled from the spec: `pyncomb.ksubsetlex` is an external collaborator
("Subset Oracle") whose contract (§6) is: enumerate all size-m subsets of a
ground set in the fixed canonical lexicographic order, as a finite
sequence, and `rank` returns the unique position of a subset in that order;
it also derives the induced ordering when the ground set is itself a
k-element subset (`pyncomb.combfuncs.createLookup`). -/

/-- All size-m subsets of the ground list `g` (each subset keeping `g`'s
element order), in lexicographic order of positions.  This is the oracle's
canonical enumeration, with `g` an arbitrary lookup ground set. -/
def subsetsOf {α : Type} : List α → Nat → List (List α)
  | _, 0 => [[]]
  | [], _ + 1 => []
  | x :: xs, m + 1 => (subsetsOf xs m).map (fun S => x :: S) ++ subsetsOf xs (m + 1)

/-- `pyncomb.ksubsetlex.all(v, m)`: all m-subsets of {0,…,v−1} in
lexicographic order. -/
def ksubsets (v : Int) (m : Nat) : List (List Int) :=
  subsetsOf (rangeInt 0 v) m

/-- `List.indexOf` with the `DecidableEq`-derived `BEq` instance (the one
Mathlib's `indexOf` lemmas are stated for). -/
def idxOf (T : List Int) (l : List (List Int)) : Nat :=
  @List.indexOf (List Int) (@instBEqOfDecidableEq (List Int) inferInstance) T l

/-- `pyncomb.ksubsetlex.rank(v, T)`: position of `T` in the canonical
enumeration of the subsets of {0,…,v−1} of size `|T|`. -/
def pyrank (v : Int) (T : List Int) : Nat :=
  idxOf T (ksubsets v T.length)

/-! ### Sudoku checker (`sudoku.py`, `checkSudoku`) -/

/-- The list `[1, 2, …, n]`, the reference "permutation of {1,…,dim²}"
target of the spec. -/
def oneToN (n : Nat) : List Int :=
  (List.range n).map (fun j : Nat => (j : Int) + 1)

/-- The column of `grid` at index `j`, as read by `checkSudoku`
(`[a[i] for a in grid]`). -/
def gridCol (grid : List (List Int)) (j : Nat) : List Int :=
  grid.map (fun a => a.getD j 0)

/-- The `dim×dim` subgrid of `grid` at block position `(gi, gj)`, as read by
`checkSudoku` (`reduce(+, [grid[gi*dim+k][gj*dim:gj*dim+dim] for k in range(dim)], [])`). -/
def subgridList (grid : List (List Int)) (dim gi gj : Nat) : List Int :=
  ((List.range dim).map fun k =>
    ((grid.getD (gi * dim + k) []).drop (gj * dim)).take dim).flatten

/-- `checkSudoku(grid, dim)` from `sudoku.py`: every row, every column and
every `dim×dim` subgrid of the `dim²×dim²` grid must equal
`set(range(1, dim²+1))` as a set.  Python's `grid[i]` / `a[i]` indexing is
modelled with `getD`; under the claim's well-formedness hypotheses every
access is in range. -/
def checkSudoku (grid : List (List Int)) (dim : Nat) : Bool :=
  ((List.range (dim ^ 2)).all fun i =>
      decide ((grid.getD i []).toFinset = (rangeInt 1 ((dim ^ 2 : Nat) + 1)).toFinset)) &&
  ((List.range (dim ^ 2)).all fun i =>
      decide ((gridCol grid i).toFinset = (rangeInt 1 ((dim ^ 2 : Nat) + 1)).toFinset)) &&
  ((List.range dim).all fun i => (List.range dim).all fun j =>
      decide ((subgridList grid dim i j).toFinset = (rangeInt 1 ((dim ^ 2 : Nat) + 1)).toFinset))

/-- "`l` is a permutation of {1,…,n}", the spec-side reading. -/
def permOfOneTo (l : List Int) (n : Nat) : Prop :=
  l.Perm (oneToN n)

/-! ### Design reduction (`design.py`, `DesignDLX`) -/

/-- The columns of the design instance: one per t-subset of the v-point
ground set, in oracle order (`columns = list(pyncomb.ksubsetlex.all(v,t))`). -/
def designColumns (v t : Int) : List (List Int) :=
  ksubsets v t.toNat

/-- The row built for the k-subset `S`:
`[pyncomb.ksubsetlex.rank(v,T) for T in pyncomb.ksubsetlex.all(pyncomb.combfuncs.createLookup(S),t)]`. -/
def designRowFor (v t : Int) (S : List Int) : List Nat :=
  (subsetsOf S t.toNat).map (fun T => pyrank v T)

/-- All rows of the design instance, one per k-subset of the ground set, in
oracle order. -/
def designRows (t v k : Int) : List (List Nat) :=
  (ksubsets v k.toNat).map (designRowFor v t)

/-- One buffer update of the horizontal-fixing loop:
`block[t-1:] = range(i*k - (i-1)*t + (i-1), (i+1)*k - i*t + i)`. -/
def hblockStep (t k i : Int) (block : List Int) : List Int :=
  pySliceFrom block (t - 1) (rangeInt (i*k - (i-1)*t + (i-1)) ((i+1)*k - i*t + i))

/-- The horizontal-fixing `while` loop of `DesignDLX.__init__`: while
`(i+1)*k - i*t + (i-1) < v`, update the block buffer, emit it and advance
`i`.  Returns the emitted blocks and the final buffer.  `fuel` bounds the
number of iterations; exhausting it (`none`) models non-termination within
the supplied bound (the caller's bound is shown sufficient whenever
`1 ≤ k` and `t ≤ k`). -/
def fixLoop (t v k : Int) : Nat → Int → List Int → Option (List (List Int) × List Int)
  | 0, _, _ => none
  | fuel + 1, i, block =>
    if (i+1)*k - i*t + (i-1) < v then
      (fixLoop t v k fuel (i+1) (hblockStep t k i block)).map
        (fun p => (hblockStep t k i block :: p.1, p.2))
    else
      some ([], block)

/-- The full sequence of fixed blocks produced by `DesignDLX.__init__` when
`fixings` is on: the horizontal blocks from the `while` loop, followed by
the final "vertical" block
`block[t-2:] = [i*k - (i-1)*t + (i-1) for i in range(k-t+2)]`
(a slice assignment on the loop's final buffer). -/
def fixerBlocks (t v k : Int) : Option (List (List Int)) :=
  (fixLoop t v k (v.toNat + 1) 0
      (rangeInt 0 (t - 1) ++ List.replicate (k - t + 1).toNat 0)).map
    (fun p => p.1 ++ [pySliceFrom p.2 (t - 2)
      ((rangeInt 0 (k - t + 2)).map (fun i => i*k - (i-1)*t + (i-1)))])

/-- The state of the `dlx.DLX` engine as built by `DesignDLX.__init__`. -/
structure DesignInstance where
  t : Int
  v : Int
  k : Int
  /-- the declared column identifiers (all primary), in order. -/
  columns : List (List Int)
  /-- each appended row's covered column indices, in order. -/
  rows : List (List Nat)
  /-- `self.rowsByLexOrder`: the row indices returned by `appendRows`,
  in submission order. -/
  rowsByLexOrder : List Nat
  /-- `self.fixedBlocks`: the ranks of the fixed blocks. -/
  fixedBlocks : List Nat
  /-- the row indices passed to `self.useRow`, in order. -/
  usedRows : List Nat
deriving Repr, DecidableEq

/-- `DesignDLX.__init__(t, v, k, fixings)`.  The source performs no input
validation; the only failure modes are the fixing loop (modelled fuel) and
the `self.rowsByLexOrder[r]` lookup, which raises `IndexError` (here:
`none`) when a fixed block's rank is out of range. -/
def designInit (t v k : Int) (fixings : Bool) : Option DesignInstance :=
  let columns := designColumns v t
  let rows := designRows t v k
  let rowsByLex := List.range rows.length
  if fixings then
    (fixerBlocks t v k).bind (fun blocks =>
      let ranks := blocks.map (fun B => pyrank v B)
      (ranks.mapM (fun r => rowsByLex.get? r)).map
        (fun used => ⟨t, v, k, columns, rows, rowsByLex, ranks, used⟩))
  else
    some ⟨t, v, k, columns, rows, rowsByLex, [], []⟩

/-- `self.getRowList(i)` of the `dlx` engine: the column identifiers
covered by row `i`. -/
def getRowList (inst : DesignInstance) (i : Nat) : Option (List (List Int)) :=
  (inst.rows.get? i).bind (fun row => row.mapM (fun c => inst.columns.get? c))

/-- The block decoded from row `i` by `DesignDLX.printSolution`:
`list(set(reduce(lambda x,y: x+y, self.getRowList(i), [])))` — the union of
the t-subsets covered by the row, as a set. -/
def decodeBlock (inst : DesignInstance) (i : Nat) : Option (Finset Int) :=
  (getRowList inst i).map (fun ts => ts.flatten.toFinset)

/-- Modelled from the spec (§4.4): the i-th "horizontal" fixed block as the
claim describes it, `{0,…,t−2}` followed by the run of `k−t+1` consecutive
integers from `i·k−(i−1)·t+(i−1)` to `(i+1)·k−i·t+i−1`. -/
def specHBlock (t k i : Int) : List Int :=
  rangeInt 0 (t - 1) ++ rangeInt (i*k - (i-1)*t + (i-1)) ((i+1)*k - i*t + i)

/-- Modelled from the spec (§4.4): the "vertical" fixed block as the claim
describes it, `{0,…,t−3}` followed by `i·k−(i−1)·t+(i−1)` for
`i = 0 … k−t+1`. -/
def specVBlock (t k : Int) : List Int :=
  rangeInt 0 (t - 2) ++ (rangeInt 0 (k - t + 2)).map (fun i => i*k - (i-1)*t + (i-1))

/-! ### Sudoku reduction (`sudoku.py`, `DLXsudoku`) -/

/-- Column identifiers of the Sudoku instance: the source's heterogeneous
tagged tuples `('r',i,j)`, `('c',i,j)`, `('g',i,j,k)`, `('e',i,j)` as a
tagged variant type. -/
inductive ColName : Type
  | r (i j : Nat)
  | c (i j : Nat)
  | g (i j k : Nat)
  | e (i j : Nat)
deriving Repr, DecidableEq

/-- The `cols` association list built in `DLXsudoku.__init__`: each column
name paired with its index `ctr+j-1` (resp. `ctr+k-1`, `ctr+j`).  The
running counter `ctr` is inlined: it equals `i*dim²` in the row block,
`dim⁴ + i*dim²` in the column block, `2·dim⁴ + (i*dim+j)*dim²` in the grid
block and `3·dim⁴ + i*dim²` in the entry block. -/
def sudokuCols (dim : Nat) : List (ColName × Nat) :=
  ((List.range (dim^2)).bind fun i =>
    (List.range (dim^2)).map fun j0 =>
      (ColName.r i (j0+1), i*dim^2 + (j0+1) - 1)) ++
  ((List.range (dim^2)).bind fun i =>
    (List.range (dim^2)).map fun j0 =>
      (ColName.c i (j0+1), dim^2*dim^2 + i*dim^2 + (j0+1) - 1)) ++
  ((List.range dim).bind fun i =>
    (List.range dim).bind fun j =>
      (List.range (dim^2)).map fun k0 =>
        (ColName.g i j (k0+1), 2*(dim^2*dim^2) + (i*dim+j)*dim^2 + (k0+1) - 1)) ++
  ((List.range (dim^2)).bind fun i =>
    (List.range (dim^2)).map fun j =>
      (ColName.e i j, 3*(dim^2*dim^2) + i*dim^2 + j))

/-- `sdict[name]`: dictionary lookup in the `cols` association list.  The
column names are pairwise distinct, so Python's dict (last-wins insertion)
coincides with first-match lookup. -/
def sdictFind (dim : Nat) (n : ColName) : Option Nat :=
  ((sudokuCols dim).find? (fun p => p.1 == n)).map (fun p => p.2)

/-- The `(colname[0], dlx.DLX.PRIMARY)` list handed to `dlx.DLX.__init__`:
every declared column is paired with the primary flag (`true`). -/
def sudokuDeclaredCols (dim : Nat) : List (ColName × Bool) :=
  (sudokuCols dim).map (fun p => (p.1, true))

/-- The row labels `(i, j, k)` in the order `DLXsudoku.__init__` appends
the rows (`i`, `j` from 0, `k` from 1, lexicographic). -/
def sudokuTriples (dim : Nat) : List (Nat × Nat × Nat) :=
  (List.range (dim^2)).bind fun i =>
    (List.range (dim^2)).bind fun j =>
      (List.range (dim^2)).map fun k0 => (i, j, k0+1)

/-- The four column indices covered by the row for `(i,j,k)`:
`[sdict[('r',i,k)], sdict[('c',j,k)], sdict[('g',i//dim,j//dim,k)],
sdict[('e',i,j)]]`. -/
def sudokuRowFor (dim : Nat) : Nat × Nat × Nat → Option (List Nat)
  | (i, j, k) => do
    let a ← sdictFind dim (ColName.r i k)
    let b ← sdictFind dim (ColName.c j k)
    let c ← sdictFind dim (ColName.g (i / dim) (j / dim) k)
    let d ← sdictFind dim (ColName.e i j)
    some [a, b, c, d]

/-- `rowdict`: label ↦ row index.  `appendRow` hands out indices in
submission order (engine contract), so the n-th appended label gets
index n. -/
def sudokuRowdict (dim : Nat) : List ((Nat × Nat × Nat) × Nat) :=
  ((sudokuTriples dim).enum).map (fun p => (p.2, p.1))

/-- `self.lookupdict`: row index ↦ label. -/
def sudokuLookupdict (dim : Nat) : List (Nat × (Nat × Nat × Nat)) :=
  (sudokuTriples dim).enum

def rowdictFind (dim : Nat) (key : Nat × Nat × Nat) : Option Nat :=
  ((sudokuRowdict dim).find? (fun p => p.1 == key)).map (fun p => p.2)

def lookupdictFind (dim : Nat) (a : Nat) : Option (Nat × Nat × Nat) :=
  ((sudokuLookupdict dim).find? (fun p => p.1 == a)).map (fun p => p.2)

/-- Python `int(c)` for one character: defined exactly when `c` is a
digit. -/
def charToInt (c : Char) : Option Nat :=
  if c.isDigit then some (c.toNat - '0'.toNat) else none

/-- The clue-preloading loop of `DLXsudoku.__init__`: for each board
position `idx` in `range(dim⁴)`, skip `'0'`, otherwise convert the
character and force `rowdict[(idx // dim², idx % dim², int(grid[idx]))]`.
A failed access (board too short → `IndexError`, non-digit → `ValueError`,
out-of-range value → `KeyError`) aborts with `none`.  Returns the forced
row indices in order. -/
def clueLoop (dim : Nat) (grid : List Char) : List Nat → Option (List Nat)
  | [] => some []
  | idx :: rest => do
    let c ← grid.get? idx
    if c = '0' then
      clueLoop dim grid rest
    else do
      let d ← charToInt c
      let a ← rowdictFind dim (idx / dim^2, idx % dim^2, d)
      let rs ← clueLoop dim grid rest
      some (a :: rs)

/-- The state of the `dlx.DLX` engine as built by `DLXsudoku.__init__`. -/
structure SudokuInstance where
  dim : Nat
  /-- the declared column (identifier, index) pairs, all primary. -/
  cols : List (ColName × Nat)
  /-- each appended row's covered column indices, in order. -/
  rows : List (List Nat)
  /-- `self.N`: the label of each appended row, in order. -/
  labels : List (Nat × Nat × Nat)
  /-- the row indices passed to `self.useRow`, in order. -/
  forced : List Nat
deriving Repr, DecidableEq

/-- `DLXsudoku.__init__(grid, dim)`.  The source performs no input
validation: the only failure modes are the generic lookup errors inside
the clue loop. -/
def sudokuInit (grid : List Char) (dim : Nat) : Option SudokuInstance :=
  ((sudokuTriples dim).mapM (sudokuRowFor dim)).bind (fun rows =>
    (clueLoop dim grid (List.range ((dim^2)^2))).map (fun forced =>
      ⟨dim, sudokuCols dim, rows, sudokuTriples dim, forced⟩))

/-- `createSolutionGrid(sol)`: start from a `dim²×dim²` grid of blanks (the
character `'0'` in the source, modelled as the value 0) and set
`solgrid[i][j] = k` for each selected row's label `(i,j,k) = self.N[a]`.
Out-of-range `i` is an `IndexError` (`none`); `List.set` is a no-op for an
out-of-range `j` (never reached for genuine labels). -/
def solStep (labels : List (Nat × Nat × Nat)) (grid : List (List Nat)) (a : Nat) :
    Option (List (List Nat)) :=
  (labels.get? a).bind (fun p =>
    (grid.get? p.1).map (fun row => grid.set p.1 (row.set p.2.1 p.2.2)))

def createSolutionGrid (inst : SudokuInstance) (sol : List Nat) :
    Option (List (List Nat)) :=
  sol.foldlM (solStep inst.labels)
    (List.replicate (inst.dim^2) (List.replicate (inst.dim^2) 0))

/-- The value of cell `(i, j)` of a decoded grid. -/
def cellVal (g : List (List Nat)) (i j : Nat) : Nat :=
  (((g.get? i).getD []).get? j).getD 0

/-! ## Theorems -/

/-! ### Basic list helpers -/

theorem length_rangeInt (a b : Int) : (rangeInt a b).length = (b - a).toNat := by
  simp [rangeInt]

theorem mem_rangeInt {a b x : Int} : x ∈ rangeInt a b ↔ a ≤ x ∧ x < b := by
  constructor
  · rintro hx
    simp only [rangeInt, List.mem_map, List.mem_range] at hx
    obtain ⟨n, hn, rfl⟩ := hx
    omega
  · rintro ⟨h1, h2⟩
    refine List.mem_map.mpr ⟨(x - a).toNat, List.mem_range.mpr (by omega), by omega⟩

theorem rangeInt_pairwise_lt (a b : Int) : (rangeInt a b).Pairwise (· < ·) := by
  refine List.pairwise_map.mpr ?_
  refine (List.pairwise_lt_range _).imp ?_
  intro m n h
  omega

theorem rangeInt_nodup (a b : Int) : (rangeInt a b).Nodup :=
  (rangeInt_pairwise_lt a b).imp (fun h => ne_of_lt h)

theorem rangeInt_succ_right {a b : Int} (h : a ≤ b) :
    rangeInt a (b + 1) = rangeInt a b ++ [b] := by
  have h1 : (b + 1 - a).toNat = (b - a).toNat + 1 := by omega
  have h2 : a + ((b - a).toNat : Int) = b := by omega
  simp only [rangeInt, h1, List.range_succ, List.map_append, List.map_cons, List.map_nil]
  rw [h2]

theorem sublist_rangeInt_aux (n : Nat) :
    ∀ (l : List Int) (a b : Int), (b - a).toNat = n →
      l.Pairwise (· < ·) → (∀ x ∈ l, a ≤ x ∧ x < b) → l.Sublist (rangeInt a b) := by
  induction n with
  | zero =>
    intro l a b hn _ hmem
    cases l with
    | nil => simp
    | cons x xs => exact absurd (hmem x (by simp)) (by omega)
  | succ n ih =>
    intro l a b hn hs hmem
    rcases List.eq_nil_or_concat l with rfl | ⟨l', x, rfl⟩
    · simp
    · simp only [List.concat_eq_append] at hs hmem ⊢
      have hx : a ≤ x ∧ x < b := hmem x (by simp)
      obtain ⟨hl', _, hcross⟩ := List.pairwise_append.mp hs
      have hstep : rangeInt a b = rangeInt a (b - 1) ++ [b - 1] := by
        have h := @rangeInt_succ_right a (b - 1) (by omega)
        simpa using h
      have hxle : x ≤ b - 1 := by omega
      rcases eq_or_lt_of_le hxle with hxe | hxlt
      · rw [hstep]
        refine List.Sublist.append ?_ (by simp [hxe])
        refine ih l' a (b - 1) (by omega) hl' ?_
        intro y hy
        have hy1 := (hmem y (List.mem_append_left _ hy)).1
        have hy2 : y < x := hcross y hy x (by simp)
        exact ⟨hy1, by omega⟩
      · rw [hstep]
        refine List.sublist_append_of_sublist_left ?_
        refine ih (l' ++ [x]) a (b - 1) (by omega) hs ?_
        intro y hy
        rcases List.mem_append.mp hy with hy' | hy'
        · have hy1 := (hmem y (List.mem_append_left _ hy')).1
          have hy2 : y < x := hcross y hy' x (by simp)
          exact ⟨hy1, by omega⟩
        · have hyx : y = x := by simpa using hy'
          subst hyx
          exact ⟨hx.1, hxlt⟩

/-- A strictly increasing list with entries in `[a, b)` is a sublist of
`rangeInt a b`. -/
theorem sublist_rangeInt {l : List Int} {a b : Int}
    (hs : l.Pairwise (· < ·)) (hmem : ∀ x ∈ l, a ≤ x ∧ x < b) :
    l.Sublist (rangeInt a b) :=
  sublist_rangeInt_aux ((b - a).toNat) l a b rfl hs hmem

/-! ### Subset oracle -/

theorem mem_subsetsOf {α : Type} {g : List α} {m : Nat} {S : List α} :
    S ∈ subsetsOf g m ↔ S.Sublist g ∧ S.length = m := by
  induction g generalizing m S with
  | nil =>
    cases m with
    | zero =>
      simp only [subsetsOf, List.mem_singleton]
      constructor
      · rintro rfl; simp
      · rintro ⟨h1, _⟩
        exact List.sublist_nil.mp h1
    | succ m =>
      simp only [subsetsOf, List.not_mem_nil, false_iff, not_and]
      intro h1
      have := List.sublist_nil.mp h1
      subst this
      simp
  | cons x xs ih =>
    cases m with
    | zero =>
      simp only [subsetsOf, List.mem_singleton]
      constructor
      · rintro rfl; simp
      · rintro ⟨_, h2⟩
        exact List.length_eq_zero.mp h2
    | succ m =>
      simp only [subsetsOf, List.mem_append, List.mem_map]
      constructor
      · rintro (⟨S', hS', rfl⟩ | hS)
        · have := ih.mp hS'
          exact ⟨List.Sublist.cons₂ x this.1, by simp [this.2]⟩
        · have := ih.mp hS
          exact ⟨List.Sublist.cons x this.1, this.2⟩
      · rintro ⟨h1, h2⟩
        cases S with
        | nil => simp at h2
        | cons y ys =>
          cases h1 with
          | cons _ h => exact Or.inr (ih.mpr ⟨h, h2⟩)
          | cons₂ _ h => exact Or.inl ⟨ys, ih.mpr ⟨h, by simpa using h2⟩, rfl⟩

theorem length_subsetsOf {α : Type} (g : List α) (m : Nat) :
    (subsetsOf g m).length = g.length.choose m := by
  induction g generalizing m with
  | nil => cases m <;> simp [subsetsOf]
  | cons x xs ih =>
    cases m with
    | zero => simp [subsetsOf]
    | succ m =>
      simp [subsetsOf, ih, Nat.choose_succ_succ, Nat.add_comm]

theorem nodup_subsetsOf {α : Type} [DecidableEq α] {g : List α} (hg : g.Nodup) (m : Nat) :
    (subsetsOf g m).Nodup := by
  induction g generalizing m with
  | nil => cases m <;> simp [subsetsOf]
  | cons x xs ih =>
    cases m with
    | zero => simp [subsetsOf]
    | succ m =>
      have hx : x ∉ xs := by simp at hg; exact hg.1
      have hxs : xs.Nodup := by simp at hg; exact hg.2
      refine List.Nodup.append ?_ (ih hxs (m + 1)) ?_
      · exact (ih hxs m).map (fun _ _ h => by simpa using h)
      · intro S hS1 hS2
        rcases List.mem_map.mp hS1 with ⟨S', _, rfl⟩
        have := (mem_subsetsOf.mp hS2).1
        have hxin : x ∈ xs := (List.Sublist.subset this) (by simp)
        exact hx hxin

theorem nodup_ksubsets (v : Int) (m : Nat) : (ksubsets v m).Nodup :=
  nodup_subsetsOf (rangeInt_nodup 0 v) m

theorem mem_ksubsets {v : Int} {m : Nat} {S : List Int} :
    S ∈ ksubsets v m ↔ S.Sublist (rangeInt 0 v) ∧ S.length = m :=
  mem_subsetsOf

theorem length_ksubsets (v : Int) (m : Nat) :
    (ksubsets v m).length = (v.toNat).choose m := by
  simp [ksubsets, length_subsetsOf, length_rangeInt]

theorem pyrank_lt {v : Int} {m : Nat} {T : List Int} (hT : T ∈ ksubsets v m) :
    pyrank v T < (ksubsets v m).length := by
  have hlen : T.length = m := (mem_ksubsets.mp hT).2
  subst hlen
  unfold pyrank idxOf
  exact List.indexOf_lt_length.mpr hT

/-- `pyrank` recovers the position: looking the rank back up in the
enumeration yields the subset. -/
theorem get_pyrank {v : Int} {m : Nat} {T : List Int} (hT : T ∈ ksubsets v m) :
    (ksubsets v m).get ⟨pyrank v T, pyrank_lt hT⟩ = T := by
  have hlen : T.length = m := (mem_ksubsets.mp hT).2
  subst hlen
  have h := @List.indexOf_get (List Int) _ T (ksubsets v T.length)
    (List.indexOf_lt_length.mpr hT)
  exact h

theorem pyrank_injOn {v : Int} {m : Nat} {T₁ T₂ : List Int}
    (h1 : T₁ ∈ ksubsets v m) (h2 : T₂ ∈ ksubsets v m)
    (h : pyrank v T₁ = pyrank v T₂) : T₁ = T₂ := by
  have e1 := get_pyrank h1
  have e2 := get_pyrank h2
  rw [← e1, ← e2]
  congr 1
  exact Fin.ext h

/-! ### Sudoku checker -/

theorem oneToN_nodup (n : Nat) : (oneToN n).Nodup := by
  refine List.Nodup.map ?_ (List.nodup_range n)
  intro a b h
  have h' : (a : Int) = b := by simpa using h
  exact_mod_cast h'

theorem length_oneToN (n : Nat) : (oneToN n).length = n := by
  simp [oneToN]

theorem rangeInt_one_eq (n : Nat) : rangeInt 1 ((n : Int) + 1) = oneToN n := by
  simp only [rangeInt, oneToN]
  have h1 : ((n : Int) + 1 - 1).toNat = n := by omega
  rw [h1]
  refine List.map_congr_left ?_
  intro a _
  omega

/-- A list of the right length whose element set is that of a
duplicate-free target is a permutation of the target. -/
theorem toFinset_eq_iff_perm {l target : List Int} (hnd : target.Nodup)
    (hlen : l.length = target.length) :
    l.toFinset = target.toFinset ↔ l.Perm target := by
  constructor
  · intro h
    have hcard : l.dedup.length = target.length := by
      have h1 : l.toFinset.card = target.toFinset.card := by rw [h]
      rwa [List.card_toFinset, List.toFinset_card_of_nodup hnd] at h1
    have hd : l.dedup = l := (List.dedup_sublist l).eq_of_length (by rw [hcard, hlen])
    have hl : l.Nodup := hd ▸ l.nodup_dedup
    have h2 : (l : Multiset Int) = (target : Multiset Int) :=
      Multiset.Nodup.toFinset_inj (Multiset.coe_nodup.mpr hl) (Multiset.coe_nodup.mpr hnd) h
    exact Multiset.coe_eq_coe.mp h2
  · intro h
    exact congrArg Multiset.toFinset (Multiset.coe_eq_coe.mpr h)

theorem getD_length_eq {grid : List (List Int)} {n i : Nat}
    (hg : grid.length = n) (hr : ∀ r ∈ grid, r.length = n) (hi : i < n) :
    (grid.getD i []).length = n := by
  rw [List.getD_eq_getElem _ _ (by omega)]
  exact hr _ (List.getElem_mem _)

theorem subgridList_length {grid : List (List Int)} {dim gi gj : Nat}
    (hg : grid.length = dim ^ 2) (hr : ∀ r ∈ grid, r.length = dim ^ 2)
    (hgi : gi < dim) (hgj : gj < dim) :
    (subgridList grid dim gi gj).length = dim ^ 2 := by
  have hsq : dim ^ 2 = dim * dim := pow_two dim
  have hmul : ∀ a : Nat, a < dim → a * dim + dim ≤ dim * dim := by
    intro a ha
    calc a * dim + dim = (a + 1) * dim := by ring
      _ ≤ dim * dim := Nat.mul_le_mul_right dim (by omega)
  rw [subgridList, List.length_flatten, List.map_map]
  have hcg : ∀ k ∈ List.range dim,
      (List.length ∘ fun k => ((grid.getD (gi * dim + k) []).drop (gj * dim)).take dim) k
        = dim := by
    intro k hk
    have hk' : k < dim := List.mem_range.mp hk
    have hidx : gi * dim + k < dim ^ 2 := by
      rw [hsq]
      have := hmul gi hgi
      omega
    have hrow : (grid.getD (gi * dim + k) []).length = dim ^ 2 :=
      getD_length_eq hg hr hidx
    simp only [Function.comp, List.length_take, List.length_drop, hrow, hsq]
    have := hmul gj hgj
    omega
  rw [List.map_congr_left hcg]
  simp [List.map_const', List.sum_replicate, smul_eq_mul, pow_two]

/-- C3: `checkSudoku(grid, dim)` returns `True` iff every row, every column
and every `dim×dim` subgrid of the `dim²×dim²` grid is a permutation of
`{1,…,dim²}`.  (The function is pure in this embedding by construction:
it only reads `grid`.) -/
theorem checkSudoku_iff (dim : Nat) (grid : List (List Int)) (hdim : 1 ≤ dim)
    (hg : grid.length = dim ^ 2) (hr : ∀ r ∈ grid, r.length = dim ^ 2) :
    checkSudoku grid dim = true ↔
      ((∀ i, i < dim ^ 2 → permOfOneTo (grid.getD i []) (dim ^ 2)) ∧
       (∀ j, j < dim ^ 2 → permOfOneTo (gridCol grid j) (dim ^ 2)) ∧
       (∀ gi, gi < dim → ∀ gj, gj < dim →
          permOfOneTo (subgridList grid dim gi gj) (dim ^ 2))) := by
  have hnd : (oneToN (dim ^ 2)).Nodup := oneToN_nodup _
  have htgt : rangeInt 1 ((dim ^ 2 : Nat) + 1) = oneToN (dim ^ 2) := rangeInt_one_eq _
  simp only [checkSudoku, Bool.and_eq_true, List.all_eq_true, List.mem_range,
    decide_eq_true_eq, htgt]
  constructor
  · rintro ⟨⟨h1, h2⟩, h3⟩
    refine ⟨fun i hi => ?_, fun j hj => ?_, fun gi hgi gj hgj => ?_⟩
    · exact (toFinset_eq_iff_perm hnd
        (by rw [getD_length_eq hg hr hi, length_oneToN])).mp (h1 i hi)
    · exact (toFinset_eq_iff_perm hnd
        (by simp [gridCol, hg, length_oneToN])).mp (h2 j hj)
    · exact (toFinset_eq_iff_perm hnd
        (by rw [subgridList_length hg hr hgi hgj, length_oneToN])).mp (h3 gi hgi gj hgj)
  · rintro ⟨h1, h2, h3⟩
    refine ⟨⟨fun i hi => ?_, fun j hj => ?_⟩, fun gi hgi gj hgj => ?_⟩
    · exact (toFinset_eq_iff_perm hnd
        (by rw [getD_length_eq hg hr hi, length_oneToN])).mpr (h1 i hi)
    · exact (toFinset_eq_iff_perm hnd
        (by simp [gridCol, hg, length_oneToN])).mpr (h2 j hj)
    · exact (toFinset_eq_iff_perm hnd
        (by rw [subgridList_length hg hr hgi hgj, length_oneToN])).mpr (h3 gi hgi gj hgj)

/-- Witness for C3 at a concrete input: the trivial valid 1×1 board. -/
theorem checkSudoku_iff_witness :
    (1 ≤ 1 ∧ ([[(1 : Int)]] : List (List Int)).length = 1 ^ 2 ∧
      (∀ r ∈ ([[(1 : Int)]] : List (List Int)), r.length = 1 ^ 2)) ∧
    (checkSudoku [[(1 : Int)]] 1 = true ↔
      ((∀ i, i < 1 ^ 2 → permOfOneTo (([[(1 : Int)]] : List (List Int)).getD i []) (1 ^ 2)) ∧
       (∀ j, j < 1 ^ 2 → permOfOneTo (gridCol [[(1 : Int)]] j) (1 ^ 2)) ∧
       (∀ gi, gi < 1 → ∀ gj, gj < 1 →
          permOfOneTo (subgridList [[(1 : Int)]] 1 gi gj) (1 ^ 2)))) :=
  ⟨⟨le_refl 1, by decide, by decide⟩,
    checkSudoku_iff 1 [[(1 : Int)]] (le_refl 1) (by decide) (by decide)⟩

/-! ### Generic Option helpers -/

theorem mapM_eq_some {α β : Type} (f : α → Option β) (g : α → β) :
    ∀ l : List α, (∀ a ∈ l, f a = some (g a)) → l.mapM f = some (l.map g) := by
  intro l
  induction l with
  | nil => intro _; rfl
  | cons a l ih =>
    intro h
    rw [List.mapM_cons, h a (by simp), ih (fun x hx => h x (by simp [hx]))]
    rfl

/-! ### Design reduction: no input validation (C1) -/

/-- C1 counterexample: the parameters (t,v,k) = (2,3,2) violate the
precondition `t < k`, yet `DesignDLX.__init__(2, 3, 2, fixings=True)`
does not fail — no `InputValidationError` exists in the code. -/
theorem designInit_validation_cex :
    ¬((1 : Int) ≤ 2 ∧ (2 : Int) < 2 ∧ (2 : Int) ≤ 3) ∧
    (designInit 2 3 2 true).isSome = true := by
  exact ⟨fun h => absurd h.2.1 (by decide), by decide⟩

/-- C1 (amended): `DesignDLX.__init__` performs no parameter validation.
With (t,v,k) = (2,3,2) (violating `t < k`) it builds the complete instance
(3 columns, 3 rows, three blocks fixed); with (t,v,k) = (2,3,4)
(violating `k ≤ v`) it dies with an out-of-range row lookup
(Python `IndexError`), not an `InputValidationError`. -/
theorem designInit_no_validation :
    (designInit 2 3 2 true).map
        (fun d => (d.columns.length, d.rows.length, d.fixedBlocks, d.usedRows))
      = some (3, 3, [0, 1, 2], [0, 1, 2]) ∧
    designInit 2 3 4 true = none := by
  exact ⟨by decide, by decide⟩

/-! ### The isomorphism fixer: loop characterization (C4, C5) -/

theorem length_hrun (t k i : Int) :
    (rangeInt (i*k - (i-1)*t + (i-1)) ((i+1)*k - i*t + i)).length = (k - t + 1).toNat := by
  rw [length_rangeInt]
  congr 1
  ring

theorem rangeInt_take {a b c : Int} (h1 : a ≤ c) (h2 : c ≤ b) (m : Nat)
    (hm : (m : Int) = c - a) :
    (rangeInt a b).take m = rangeInt a c := by
  simp only [rangeInt]
  rw [← List.map_take, List.take_range]
  have hmin : min m (b - a).toNat = (c - a).toNat := by omega
  rw [hmin]

theorem rangeInt_cons {a b : Int} (h : a < b) :
    rangeInt a b = a :: rangeInt (a + 1) b := by
  have h1 : (b - a).toNat = (b - (a + 1)).toNat + 1 := by omega
  simp only [rangeInt, h1, List.range_succ_eq_map, List.map_cons, List.map_map]
  congr 1
  · simp
  · refine List.map_congr_left ?_
    intro x _
    simp only [Function.comp]
    push_cast
    ring

theorem hblockStep_eq {t k : Int} (i : Int) (ht : 1 ≤ t) {X : List Int}
    (hX : X.length = (k - t + 1).toNat) :
    hblockStep t k i (rangeInt 0 (t - 1) ++ X) = specHBlock t k i := by
  unfold hblockStep pySliceFrom specHBlock
  have hlen : (rangeInt 0 (t - 1)).length = (t - 1).toNat := by
    rw [length_rangeInt]
    omega
  have hs : ¬(t - 1 < 0) := by omega
  rw [if_neg hs]
  have hmin : min (t - 1).toNat (rangeInt 0 (t - 1) ++ X).length = (t - 1).toNat := by
    rw [List.length_append, hlen]
    omega
  rw [hmin, List.take_left' hlen]

theorem length_specHBlock {t k : Int} (i : Int) (ht : 1 ≤ t) (htk : t ≤ k) :
    (specHBlock t k i).length = k.toNat := by
  rw [specHBlock, List.length_append, length_rangeInt, length_hrun]
  omega

/-- Full characterization of the horizontal-fixing `while` loop: starting
at index `i` with a well-formed buffer and enough fuel, the loop emits
exactly the blocks `specHBlock t k j` for the consecutive `j ≥ i`
satisfying the loop condition, and never exhausts its fuel. -/
theorem fixLoop_spec (t v k : Int) (ht : 1 ≤ t) (htk : t ≤ k) (hk : 1 ≤ k) :
    ∀ (fuel : Nat) (i : Int) (X : List Int), 0 ≤ i → (v - i).toNat < fuel →
      X.length = (k - t + 1).toNat →
      ∃ I : Int, i ≤ I ∧
        (∀ j, i ≤ j → j < I → (j+1)*k - j*t + (j-1) < v) ∧
        ¬((I+1)*k - I*t + (I-1) < v) ∧
        fixLoop t v k fuel i (rangeInt 0 (t-1) ++ X) =
          some ((rangeInt i I).map (specHBlock t k),
                if I = i then rangeInt 0 (t-1) ++ X else specHBlock t k (I-1)) := by
  intro fuel
  induction fuel with
  | zero =>
    intro i X _ hfuel _
    omega
  | succ fuel ih =>
    intro i X hi hfuel hX
    by_cases hcond : (i+1)*k - i*t + (i-1) < v
    · have hnn : 0 ≤ i * (k - t) := mul_nonneg hi (by omega)
      have hident : (i+1)*k - i*t + (i-1) = k + i*(k-t) + i - 1 := by ring
      have hiv : i < v := by omega
      have hstep : hblockStep t k i (rangeInt 0 (t-1) ++ X) = specHBlock t k i :=
        hblockStep_eq i ht hX
      obtain ⟨I, hII, hcondj, hcondI, heq⟩ :=
        ih (i + 1) (rangeInt (i*k - (i-1)*t + (i-1)) ((i+1)*k - i*t + i))
          (by omega) (by omega) (length_hrun t k i)
      refine ⟨I, by omega, ?_, hcondI, ?_⟩
      · intro j hij hjI
        rcases eq_or_lt_of_le hij with rfl | hij'
        · exact hcond
        · exact hcondj j (by omega) hjI
      · have heq' : fixLoop t v k fuel (i + 1) (specHBlock t k i) =
            some (List.map (specHBlock t k) (rangeInt (i+1) I),
              if I = i + 1 then specHBlock t k i else specHBlock t k (I - 1)) := by
          show fixLoop t v k fuel (i + 1)
              (rangeInt 0 (t - 1) ++
                rangeInt (i*k - (i-1)*t + (i-1)) ((i+1)*k - i*t + i)) =
            some (List.map (specHBlock t k) (rangeInt (i+1) I),
              if I = i + 1 then
                rangeInt 0 (t - 1) ++
                  rangeInt (i*k - (i-1)*t + (i-1)) ((i+1)*k - i*t + i)
              else specHBlock t k (I - 1))
          exact heq
        show fixLoop t v k (fuel + 1) i (rangeInt 0 (t-1) ++ X) = _
        rw [fixLoop, if_pos hcond, hstep, heq', Option.map_some']
        have hIi : ¬(I = i) := by omega
        rw [if_neg hIi]
        rw [rangeInt_cons (show i < I by omega), List.map_cons]
        by_cases hI1 : I = i + 1
        · subst hI1
          rw [if_pos rfl, show i + 1 - 1 = i from by omega]
        · rw [if_neg hI1]
    · refine ⟨i, le_refl i, by omega, hcond, ?_⟩
      show fixLoop t v k (fuel + 1) i (rangeInt 0 (t-1) ++ X) = _
      rw [fixLoop, if_neg hcond, if_pos rfl]
      simp [rangeInt]

/-- For `t ≥ 2` the final slice assignment
`block[t-2:] = [i*k - (i-1)*t + (i-1) for i in range(k-t+2)]` applied to a
loop buffer turns it into exactly the spec's vertical block. -/
theorem pySliceFrom_vert {t k : Int} (I : Int) (ht : 2 ≤ t) (htk : t ≤ k) :
    pySliceFrom (specHBlock t k (I-1)) (t - 2)
      ((rangeInt 0 (k - t + 2)).map (fun i => i*k - (i-1)*t + (i-1))) = specVBlock t k := by
  unfold pySliceFrom specHBlock specVBlock
  have hs : ¬(t - 2 < 0) := by omega
  rw [if_neg hs]
  have hlen1 : (rangeInt 0 (t - 1)).length = (t - 1).toNat := by
    rw [length_rangeInt]
    omega
  have hmin : min (t - 2).toNat
      (rangeInt 0 (t - 1) ++
        rangeInt ((I-1)*k - (I-1-1)*t + (I-1-1)) ((I-1+1)*k - (I-1)*t + (I-1))).length
      = (t - 2).toNat := by
    rw [List.length_append, hlen1, length_hrun]
    omega
  rw [hmin]
  rw [List.take_append_of_le_length (by rw [hlen1]; omega)]
  congr 1
  exact rangeInt_take (by omega) (by omega) (t - 2).toNat (by omega)

/-- Characterization of the full fixer output for `2 ≤ t < k ≤ v`: the
horizontal blocks for exactly the loop indices `0 ≤ j < I`, followed by the
vertical block, both as the spec describes them. -/
theorem fixerBlocks_spec (t v k : Int) (ht : 2 ≤ t) (htk : t < k) (hkv : k ≤ v) :
    ∃ I : Int, 1 ≤ I ∧
      (∀ j, 0 ≤ j → j < I → (j+1)*k - j*t + (j-1) < v) ∧
      ¬((I+1)*k - I*t + (I-1) < v) ∧
      fixerBlocks t v k =
        some ((rangeInt 0 I).map (specHBlock t k) ++ [specVBlock t k]) := by
  obtain ⟨I, hI0, hcondj, hcondI, heq⟩ :=
    fixLoop_spec t v k (by omega) (by omega) (by omega) (v.toNat + 1) 0
      (List.replicate (k - t + 1).toNat 0) (le_refl 0) (by omega)
      (List.length_replicate _ _)
  have hI1 : 1 ≤ I := by
    rcases eq_or_lt_of_le hI0 with rfl | h
    · exact absurd (by omega : (0+1)*k - 0*t + (0-1) < v) hcondI
    · omega
  refine ⟨I, hI1, hcondj, hcondI, ?_⟩
  rw [fixerBlocks, heq, Option.map_some']
  have hIne : ¬(I = 0) := by omega
  rw [if_neg hIne]
  rw [pySliceFrom_vert I ht (le_of_lt htk)]

/-- C4 counterexample: at (t,v,k) = (1,5,2) the claim's arithmetic predicts
the fixed blocks {0,1}, {2,3} (horizontal, loop indices i = 0,1, stopping
at i = 2) followed by the vertical block {0,2,4}; the code instead produces
the 4-element buffer `[2,0,2,4]` as its last block, because `block[t-2:]`
is the negative-index slice `block[-1:]` when t = 1. -/
theorem fixerBlocks_t1_cex :
    ((0+1)*2 - 0*1 + (0-1) < (5:Int)) ∧
    ((1+1)*2 - 1*1 + (1-1) < (5:Int)) ∧
    ¬((2+1)*2 - 2*1 + (2-1) < (5:Int)) ∧
    ((rangeInt 0 2).map (specHBlock 1 2) ++ [specVBlock 1 2]
      = [[0, 1], [2, 3], [0, 2, 4]]) ∧
    fixerBlocks 1 5 2 = some [[0, 1], [2, 3], [2, 0, 2, 4]] ∧
    fixerBlocks 1 5 2 ≠ some ((rangeInt 0 2).map (specHBlock 1 2) ++ [specVBlock 1 2]) := by
  refine ⟨by decide, by decide, by decide, by decide, by decide, by decide⟩

/-- Shared analysis of the fixer under the validity proviso: the blocks are
exactly the spec's horizontal family followed by the vertical block (which
forces `t ≥ 2`), and construction completes with those blocks' ranks fixed
and forced. -/
theorem fixer_valid_char (t v k : Int) (ht : 1 ≤ t) (htk : t < k) (hkv : k ≤ v)
    (bs : List (List Int)) (hbs : fixerBlocks t v k = some bs)
    (hval : ∀ B ∈ bs, B ∈ ksubsets v k.toNat) :
    2 ≤ t ∧
    ∃ I : Int, 1 ≤ I ∧
      (∀ j, 0 ≤ j → j < I → (j+1)*k - j*t + (j-1) < v) ∧
      ¬((I+1)*k - I*t + (I-1) < v) ∧
      bs = (rangeInt 0 I).map (specHBlock t k) ++ [specVBlock t k] ∧
      designInit t v k true =
        some ⟨t, v, k, designColumns v t, designRows t v k,
              List.range (designRows t v k).length,
              bs.map (pyrank v), bs.map (pyrank v)⟩ := by
  obtain ⟨I, hI0, hcondj, hcondI, heq⟩ :=
    fixLoop_spec t v k ht (by omega) (by omega) (v.toNat + 1) 0
      (List.replicate (k - t + 1).toNat 0) (le_refl 0) (by omega)
      (List.length_replicate _ _)
  have hI1 : 1 ≤ I := by
    rcases eq_or_lt_of_le hI0 with rfl | h
    · exact absurd (by omega : (0+1)*k - 0*t + (0-1) < v) hcondI
    · omega
  rw [fixerBlocks, heq, Option.map_some', if_neg (by omega : ¬ I = 0)] at hbs
  have hbs' : bs = List.map (specHBlock t k) (rangeInt 0 I) ++
      [pySliceFrom (specHBlock t k (I-1)) (t - 2)
        ((rangeInt 0 (k - t + 2)).map (fun i => i*k - (i-1)*t + (i-1)))] :=
    (Option.some_inj.mp hbs).symm
  have hvmem : pySliceFrom (specHBlock t k (I-1)) (t - 2)
      ((rangeInt 0 (k - t + 2)).map (fun i => i*k - (i-1)*t + (i-1))) ∈ bs := by
    rw [hbs']
    exact List.mem_append_right _ (List.mem_singleton_self _)
  have hvlen : (pySliceFrom (specHBlock t k (I-1)) (t - 2)
      ((rangeInt 0 (k - t + 2)).map (fun i => i*k - (i-1)*t + (i-1)))).length = k.toNat :=
    (mem_ksubsets.mp (hval _ hvmem)).2
  have hbuf : (specHBlock t k (I-1)).length = k.toNat :=
    length_specHBlock (I-1) ht (le_of_lt htk)
  have ht2 : 2 ≤ t := by
    by_contra hlt
    have ht1 : t = 1 := by omega
    subst ht1
    rw [pySliceFrom, if_pos (by omega : (1:Int) - 2 < 0)] at hvlen
    rw [List.length_append, List.length_take, List.length_map, length_rangeInt, hbuf]
      at hvlen
    omega
  have hveq := @pySliceFrom_vert t k I ht2 (le_of_lt htk)
  rw [hveq] at hbs'
  refine ⟨ht2, I, hI1, hcondj, hcondI, hbs', ?_⟩
  show (fixerBlocks t v k).bind _ = _
  rw [fixerBlocks, heq, Option.map_some', if_neg (by omega : ¬ I = 0), hveq,
    ← hbs', Option.some_bind]
  have hranks : ∀ r ∈ bs.map (fun B => pyrank v B), r < (designRows t v k).length := by
    intro r hr
    rcases List.mem_map.mp hr with ⟨B, hB, rfl⟩
    have h1 : pyrank v B < (ksubsets v k.toNat).length := pyrank_lt (hval B hB)
    have h2 : (designRows t v k).length = (ksubsets v k.toNat).length := by
      simp [designRows]
    omega
  have hmapM : (bs.map (fun B => pyrank v B)).mapM
      (fun r => (List.range (designRows t v k).length).get? r)
      = some ((bs.map (fun B => pyrank v B)).map id) :=
    mapM_eq_some _ id _ (fun r hr => List.get?_range (hranks r hr))
  simp only [hmapM, List.map_id, Option.map_some']

/-- C4 (amended): for `1 ≤ t < k ≤ v` with fixings enabled, **provided
every block the fixer constructs is a valid k-subset of {0,…,v−1}** (this
forces t ≥ 2; for t = 1 the final slice `block[t-2:]` is a negative-index
slice producing a 2k-element buffer, see `fixerBlocks_t1_cex`), the
Isomorphism Fixer produces exactly, in order, the horizontal blocks
`{0,…,t−2} ∪ {i·k−(i−1)·t+(i−1), …, (i+1)·k−i·t+i−1}` for the consecutive
loop indices `i = 0, 1, …` satisfying `(i+1)·k−i·t+(i−1) < v`, followed by
the vertical block `{0,…,t−3} ∪ {i·k−(i−1)·t+(i−1) : i = 0 … k−t+1}`; each
block's oracle rank is appended to `fixedBlocks` and the row of that rank
is forced (`usedRows`). -/
theorem designFixings_spec (t v k : Int) (ht : 1 ≤ t) (htk : t < k) (hkv : k ≤ v)
    (bs : List (List Int)) (hbs : fixerBlocks t v k = some bs)
    (hval : ∀ B ∈ bs, B ∈ ksubsets v k.toNat) :
    ∃ I : Int, 1 ≤ I ∧
      (∀ j, 0 ≤ j → j < I → (j+1)*k - j*t + (j-1) < v) ∧
      ¬((I+1)*k - I*t + (I-1) < v) ∧
      bs = (rangeInt 0 I).map (specHBlock t k) ++ [specVBlock t k] ∧
      designInit t v k true =
        some ⟨t, v, k, designColumns v t, designRows t v k,
              List.range (designRows t v k).length,
              bs.map (pyrank v), bs.map (pyrank v)⟩ :=
  (fixer_valid_char t v k ht htk hkv bs hbs hval).2

/-- Witness for C4 at (t,v,k) = (2,7,3): the Fano-plane fixings. -/
theorem designFixings_spec_witness :
    ((1:Int) ≤ 2 ∧ (2:Int) < 3 ∧ (3:Int) ≤ 7 ∧
      fixerBlocks 2 7 3 = some [[0,1,2],[0,3,4],[0,5,6],[1,3,5]] ∧
      (∀ B ∈ ([[0,1,2],[0,3,4],[0,5,6],[1,3,5]] : List (List Int)),
        B ∈ ksubsets 7 (3:Int).toNat)) ∧
    (∃ I : Int, 1 ≤ I ∧
      (∀ j, 0 ≤ j → j < I → (j+1)*3 - j*2 + (j-1) < 7) ∧
      ¬((I+1)*3 - I*2 + (I-1) < 7) ∧
      ([[0,1,2],[0,3,4],[0,5,6],[1,3,5]] : List (List Int))
        = (rangeInt 0 I).map (specHBlock 2 3) ++ [specVBlock 2 3] ∧
      designInit 2 7 3 true =
        some ⟨2, 7, 3, designColumns 7 2, designRows 2 7 3,
              List.range (designRows 2 7 3).length,
              ([[0,1,2],[0,3,4],[0,5,6],[1,3,5]] : List (List Int)).map (pyrank 7),
              ([[0,1,2],[0,3,4],[0,5,6],[1,3,5]] : List (List Int)).map (pyrank 7)⟩) :=
  ⟨⟨by decide, by decide, by decide, by decide, by decide⟩,
    designFixings_spec 2 7 3 (by decide) (by decide) (by decide)
      [[0,1,2],[0,3,4],[0,5,6],[1,3,5]] (by decide) (by decide)⟩

/-! ### Fixed blocks intersection bound (C5) -/

theorem rangeInt_toFinset (a b : Int) : (rangeInt a b).toFinset = Finset.Ico a b := by
  ext x
  simp [mem_rangeInt, Finset.mem_Ico]

theorem list_toFinset_map (f : Int → Int) (l : List Int) :
    (l.map f).toFinset = l.toFinset.image f := by
  ext x
  simp [List.mem_map, Finset.mem_image]

theorem specHBlock_toFinset (t k i : Int) :
    (specHBlock t k i).toFinset =
      Finset.Ico 0 (t-1) ∪
        Finset.Ico (i*(k-t+1) + (t-1)) (i*(k-t+1) + (t-1) + (k-t+1)) := by
  have e1 : i*k - (i-1)*t + (i-1) = i*(k-t+1) + (t-1) := by ring
  have e2 : (i+1)*k - i*t + i = i*(k-t+1) + (t-1) + (k-t+1) := by ring
  rw [specHBlock, List.toFinset_append, rangeInt_toFinset, rangeInt_toFinset, e1, e2]

theorem specVBlock_toFinset (t k : Int) :
    (specVBlock t k).toFinset =
      Finset.Ico 0 (t-2) ∪
        (Finset.Ico (0:Int) (k-t+2)).image (fun i => i*(k-t+1) + (t-1)) := by
  have hf : (fun i : Int => i*k - (i-1)*t + (i-1)) = (fun i => i*(k-t+1) + (t-1)) :=
    funext (fun i => by ring)
  rw [specVBlock, List.toFinset_append, rangeInt_toFinset, hf, list_toFinset_map,
    rangeInt_toFinset]

/-- Two distinct horizontal blocks share exactly the common prefix
`{0,…,t−2}`: their runs are disjoint. -/
theorem hh_inter_card {t s A B : Int} (hs : 1 ≤ s)
    (hA : t - 1 ≤ A) (hB : A + s ≤ B) :
    ((Finset.Ico 0 (t-1) ∪ Finset.Ico A (A + s)) ∩
      (Finset.Ico 0 (t-1) ∪ Finset.Ico B (B + s))).card ≤ (t-1).toNat := by
  have hsub : (Finset.Ico 0 (t-1) ∪ Finset.Ico A (A + s)) ∩
      (Finset.Ico 0 (t-1) ∪ Finset.Ico B (B + s)) ⊆ Finset.Ico 0 (t-1) := by
    intro x hx
    simp only [Finset.mem_inter, Finset.mem_union, Finset.mem_Ico] at hx ⊢
    omega
  calc _ ≤ (Finset.Ico (0:Int) (t-1)).card := Finset.card_le_card hsub
    _ = (t-1).toNat := by rw [Int.card_Ico]; omega

/-- The vertical block meets a horizontal block in at most the prefix
`{0,…,t−3}` plus the single run element `i·(k−t+1)+(t−1)`. -/
theorem vh_inter_card {t s m i : Int} (ht : 2 ≤ t) (hs : 1 ≤ s) (hi : 0 ≤ i) :
    ((Finset.Ico 0 (t-2) ∪ (Finset.Ico (0:Int) m).image (fun j => j*s + (t-1))) ∩
      (Finset.Ico 0 (t-1) ∪ Finset.Ico (i*s + (t-1)) (i*s + (t-1) + s))).card
      ≤ (t-1).toNat := by
  have hsub : (Finset.Ico 0 (t-2) ∪
        (Finset.Ico (0:Int) m).image (fun j => j*s + (t-1))) ∩
      (Finset.Ico 0 (t-1) ∪ Finset.Ico (i*s + (t-1)) (i*s + (t-1) + s)) ⊆
      Finset.Ico (0:Int) (t-2) ∪ {i*s + (t-1)} := by
    intro x hx
    simp only [Finset.mem_inter, Finset.mem_union, Finset.mem_image, Finset.mem_Ico,
      Finset.mem_singleton] at hx ⊢
    obtain ⟨h1, h2⟩ := hx
    rcases h1 with h1 | ⟨j, ⟨hj0, _⟩, rfl⟩
    · exact Or.inl h1
    · right
      have hjs : 0 ≤ j * s := mul_nonneg hj0 (by omega)
      rcases h2 with h2 | h2
      · omega
      · have hij : i ≤ j := by
          by_contra hc
          have h5 : j ≤ i - 1 := by omega
          have h6 : j*s ≤ (i-1)*s := mul_le_mul_of_nonneg_right h5 (by omega)
          have e : (i-1)*s = i*s - s := by ring
          omega
        have hji : j ≤ i := by
          by_contra hc
          have h5 : i + 1 ≤ j := by omega
          have h6 : (i+1)*s ≤ j*s := mul_le_mul_of_nonneg_right h5 (by omega)
          have e : (i+1)*s = i*s + s := by ring
          omega
        have hij' : j = i := by omega
        subst hij'
        rfl
  calc ((Finset.Ico 0 (t-2) ∪
        (Finset.Ico (0:Int) m).image (fun j => j*s + (t-1))) ∩
      (Finset.Ico 0 (t-1) ∪ Finset.Ico (i*s + (t-1)) (i*s + (t-1) + s))).card
      ≤ (Finset.Ico (0:Int) (t-2) ∪ {i*s + (t-1)}).card := Finset.card_le_card hsub
    _ ≤ (Finset.Ico (0:Int) (t-2)).card + ({i*s + (t-1)} : Finset Int).card :=
        Finset.card_union_le _ _
    _ = (t-2).toNat + 1 := by rw [Int.card_Ico, Finset.card_singleton]; omega
    _ ≤ (t-1).toNat := by omega

/-- C5: under the claim's proviso that the fixer's constructed blocks are
valid k-subsets of {0,…,v−1}, any two distinct fixed blocks intersect in at
most t−1 points, and consequently no t-subset column is covered by two
distinct fixed blocks. -/
theorem fixedBlocks_pairwise_inter (t v k : Int) (ht : 1 ≤ t) (htk : t < k) (hkv : k ≤ v)
    (bs : List (List Int)) (hbs : fixerBlocks t v k = some bs)
    (hval : ∀ B ∈ bs, B ∈ ksubsets v k.toNat) :
    ∀ B₁ ∈ bs, ∀ B₂ ∈ bs, B₁ ≠ B₂ →
      (B₁.toFinset ∩ B₂.toFinset).card ≤ (t-1).toNat ∧
      ∀ T ∈ ksubsets v t.toNat,
        ¬(T.toFinset ⊆ B₁.toFinset ∧ T.toFinset ⊆ B₂.toFinset) := by
  obtain ⟨ht2, I, hI1, hcondj, hcondI, hbseq, hinit⟩ :=
    fixer_valid_char t v k ht htk hkv bs hbs hval
  have hs : 1 ≤ k - t + 1 := by omega
  have hcard : ∀ B₁ ∈ bs, ∀ B₂ ∈ bs, B₁ ≠ B₂ →
      (B₁.toFinset ∩ B₂.toFinset).card ≤ (t-1).toNat := by
    intro B₁ hB₁ B₂ hB₂ hne
    rw [hbseq] at hB₁ hB₂
    rcases List.mem_append.mp hB₁ with h₁ | h₁
    · rcases List.mem_map.mp h₁ with ⟨i, hiI, rfl⟩
      have hi0 : 0 ≤ i := (mem_rangeInt.mp hiI).1
      rcases List.mem_append.mp hB₂ with h₂ | h₂
      · rcases List.mem_map.mp h₂ with ⟨j, hjI, rfl⟩
        have hj0 : 0 ≤ j := (mem_rangeInt.mp hjI).1
        have hij : i ≠ j := fun h => hne (by rw [h])
        rw [specHBlock_toFinset, specHBlock_toFinset]
        rcases lt_or_gt_of_ne hij with h | h
        · refine hh_inter_card hs (by have := mul_nonneg hi0 (by omega : (0:Int) ≤ k-t+1); omega) ?_
          have h6 : (i+1)*(k-t+1) ≤ j*(k-t+1) :=
            mul_le_mul_of_nonneg_right (by omega) (by omega)
          have e : (i+1)*(k-t+1) = i*(k-t+1) + (k-t+1) := by ring
          omega
        · rw [Finset.inter_comm]
          refine hh_inter_card hs (by have := mul_nonneg hj0 (by omega : (0:Int) ≤ k-t+1); omega) ?_
          have h6 : (j+1)*(k-t+1) ≤ i*(k-t+1) :=
            mul_le_mul_of_nonneg_right (by omega) (by omega)
          have e : (j+1)*(k-t+1) = j*(k-t+1) + (k-t+1) := by ring
          omega
      · have h₂' : B₂ = specVBlock t k := List.mem_singleton.mp h₂
        subst h₂'
        rw [Finset.inter_comm, specVBlock_toFinset, specHBlock_toFinset]
        exact vh_inter_card ht2 hs hi0
    · have h₁' : B₁ = specVBlock t k := List.mem_singleton.mp h₁
      subst h₁'
      rcases List.mem_append.mp hB₂ with h₂ | h₂
      · rcases List.mem_map.mp h₂ with ⟨j, hjI, rfl⟩
        have hj0 : 0 ≤ j := (mem_rangeInt.mp hjI).1
        rw [specVBlock_toFinset, specHBlock_toFinset]
        exact vh_inter_card ht2 hs hj0
      · exact absurd (List.mem_singleton.mp h₂).symm hne
  refine fun B₁ hB₁ B₂ hB₂ hne => ⟨hcard B₁ hB₁ B₂ hB₂ hne, ?_⟩
  rintro T hT ⟨hT1, hT2⟩
  have hTsub : T.toFinset ⊆ B₁.toFinset ∩ B₂.toFinset := Finset.subset_inter hT1 hT2
  have hTnd : T.Nodup := ((mem_ksubsets.mp hT).1).nodup (rangeInt_nodup 0 v)
  have hTcard : T.toFinset.card = t.toNat := by
    rw [List.toFinset_card_of_nodup hTnd, (mem_ksubsets.mp hT).2]
  have hle := Finset.card_le_card hTsub
  have hbound := hcard B₁ hB₁ B₂ hB₂ hne
  omega

/-- Witness for C5 at (t,v,k) = (2,7,3) with the Fano fixings. -/
theorem fixedBlocks_pairwise_inter_witness :
    ((1:Int) ≤ 2 ∧ (2:Int) < 3 ∧ (3:Int) ≤ 7 ∧
      fixerBlocks 2 7 3 = some [[0,1,2],[0,3,4],[0,5,6],[1,3,5]] ∧
      (∀ B ∈ ([[0,1,2],[0,3,4],[0,5,6],[1,3,5]] : List (List Int)),
        B ∈ ksubsets 7 (3:Int).toNat)) ∧
    (∀ B₁ ∈ ([[0,1,2],[0,3,4],[0,5,6],[1,3,5]] : List (List Int)),
      ∀ B₂ ∈ ([[0,1,2],[0,3,4],[0,5,6],[1,3,5]] : List (List Int)), B₁ ≠ B₂ →
      (B₁.toFinset ∩ B₂.toFinset).card ≤ ((2:Int)-1).toNat ∧
      ∀ T ∈ ksubsets 7 (2:Int).toNat,
        ¬(T.toFinset ⊆ B₁.toFinset ∧ T.toFinset ⊆ B₂.toFinset)) :=
  ⟨⟨by decide, by decide, by decide, by decide, by decide⟩,
    fixedBlocks_pairwise_inter 2 7 3 (by decide) (by decide) (by decide)
      [[0,1,2],[0,3,4],[0,5,6],[1,3,5]] (by decide) (by decide)⟩

/-! ### Design columns and rows (C6) -/

/-- A strictly increasing list whose elements all lie in a strictly
increasing list is a sublist of it. -/
theorem sublist_of_sorted_subset :
    ∀ (S T : List Int), S.Pairwise (· < ·) → T.Pairwise (· < ·) →
      (∀ x ∈ T, x ∈ S) → T.Sublist S := by
  intro S
  induction S with
  | nil =>
    intro T _ _ hmem
    cases T with
    | nil => simp
    | cons y ys => exact absurd (hmem y (by simp)) (by simp)
  | cons s S' ih =>
    intro T hS hT hmem
    have hS' : S'.Pairwise (· < ·) := (List.pairwise_cons.mp hS).2
    have hsS' : ∀ x ∈ S', s < x := (List.pairwise_cons.mp hS).1
    cases T with
    | nil => simp
    | cons y ys =>
      have hyys : ∀ x ∈ ys, y < x := (List.pairwise_cons.mp hT).1
      have hys : ys.Pairwise (· < ·) := (List.pairwise_cons.mp hT).2
      rcases List.mem_cons.mp (hmem y (by simp)) with rfl | hyS'
      · refine List.Sublist.cons₂ y (ih ys hS' hys ?_)
        intro x hx
        rcases List.mem_cons.mp (hmem x (by simp [hx])) with rfl | hxS'
        · exact absurd (hyys x hx) (lt_irrefl x)
        · exact hxS'
      · refine List.Sublist.cons s (ih (y :: ys) hS' hT ?_)
        intro x hx
        rcases List.mem_cons.mp hx with rfl | hxys
        · exact hyS'
        · rcases List.mem_cons.mp (hmem x hx) with rfl | hxS'
          · have h1 : x < x := lt_trans (hsS' y hyS') (hyys x hxys)
            exact absurd h1 (lt_irrefl x)
          · exact hxS'

theorem mem_ksubsets_sorted {v : Int} {m : Nat} {T : List Int} (hT : T ∈ ksubsets v m) :
    T.Pairwise (· < ·) :=
  List.Pairwise.sublist (mem_ksubsets.mp hT).1 (rangeInt_pairwise_lt 0 v)

/-- C6: `DesignDLX.__init__` declares exactly one primary column per
t-subset of the v-point ground set (the oracle's enumeration is
duplicate-free and complete, `C(v,t)` columns), and appends exactly one row
per k-subset `S`, in oracle order (`C(v,k)` rows); the row for `S` covers
`C(k,t)` pairwise-distinct valid column indices, and it covers the column
of a t-subset `T` exactly when `T ⊆ S`. -/
theorem designColumnsRows_spec (t v k : Int) (ht : 1 ≤ t) (htk : t < k) (hkv : k ≤ v) :
    (designColumns v t).Nodup ∧
    (designColumns v t).length = v.toNat.choose t.toNat ∧
    (∀ T, T ∈ designColumns v t ↔
      (T.Pairwise (· < ·) ∧ (∀ x ∈ T, 0 ≤ x ∧ x < v) ∧ T.length = t.toNat)) ∧
    (ksubsets v k.toNat).Nodup ∧
    (designRows t v k).length = v.toNat.choose k.toNat ∧
    (∀ S ∈ ksubsets v k.toNat,
      (designRowFor v t S).length = k.toNat.choose t.toNat ∧
      (designRowFor v t S).Nodup ∧
      (∀ r ∈ designRowFor v t S, r < (designColumns v t).length) ∧
      (∀ T ∈ ksubsets v t.toNat,
        (pyrank v T ∈ designRowFor v t S ↔ T.toFinset ⊆ S.toFinset))) := by
  refine ⟨nodup_ksubsets v t.toNat, length_ksubsets v t.toNat, ?_, nodup_ksubsets v k.toNat,
    ?_, ?_⟩
  · intro T
    rw [show designColumns v t = ksubsets v t.toNat from rfl, mem_ksubsets]
    constructor
    · rintro ⟨h1, h2⟩
      exact ⟨List.Pairwise.sublist h1 (rangeInt_pairwise_lt 0 v),
        fun x hx => mem_rangeInt.mp (h1.subset hx), h2⟩
    · rintro ⟨h1, h2, h3⟩
      exact ⟨sublist_rangeInt h1 (fun x hx => h2 x hx), h3⟩
  · rw [designRows, List.length_map, length_ksubsets]
  · intro S hS
    have hSsub : S.Sublist (rangeInt 0 v) := (mem_ksubsets.mp hS).1
    have hSlen : S.length = k.toNat := (mem_ksubsets.mp hS).2
    have hSnd : S.Nodup := hSsub.nodup (rangeInt_nodup 0 v)
    have hmemk : ∀ T ∈ subsetsOf S t.toNat, T ∈ ksubsets v t.toNat := by
      intro T hT
      exact mem_ksubsets.mpr
        ⟨((mem_subsetsOf.mp hT).1).trans hSsub, (mem_subsetsOf.mp hT).2⟩
    refine ⟨?_, ?_, ?_, ?_⟩
    · rw [designRowFor, List.length_map, length_subsetsOf, hSlen]
    · refine List.Nodup.map_on ?_ (nodup_subsetsOf hSnd t.toNat)
      intro T₁ h₁ T₂ h₂ h
      exact pyrank_injOn (hmemk T₁ h₁) (hmemk T₂ h₂) h
    · intro r hr
      rcases List.mem_map.mp hr with ⟨T, hT, rfl⟩
      exact pyrank_lt (hmemk T hT)
    · intro T hT
      constructor
      · intro hmem
        rcases List.mem_map.mp hmem with ⟨T', hT', hrk⟩
        have hTT : T' = T := pyrank_injOn (hmemk T' hT') hT hrk
        subst hTT
        intro x hx
        exact List.mem_toFinset.mpr
          (((mem_subsetsOf.mp hT').1).subset (List.mem_toFinset.mp hx))
      · intro hsub
        refine List.mem_map.mpr ⟨T, ?_, rfl⟩
        refine mem_subsetsOf.mpr ⟨?_, (mem_ksubsets.mp hT).2⟩
        refine sublist_of_sorted_subset S T
          (List.Pairwise.sublist hSsub (rangeInt_pairwise_lt 0 v)) (mem_ksubsets_sorted hT) ?_
        intro x hx
        exact List.mem_toFinset.mp (hsub (List.mem_toFinset.mpr hx))

/-- Witness for C6 at (t,v,k) = (2,7,3). -/
theorem designColumnsRows_spec_witness :
    ((1:Int) ≤ 2 ∧ (2:Int) < 3 ∧ (3:Int) ≤ 7) ∧
    ((designColumns 7 2).Nodup ∧
     (designColumns 7 2).length = (7:Int).toNat.choose (2:Int).toNat ∧
     (∀ T, T ∈ designColumns 7 2 ↔
       (T.Pairwise (· < ·) ∧ (∀ x ∈ T, 0 ≤ x ∧ x < 7) ∧ T.length = (2:Int).toNat)) ∧
     (ksubsets 7 (3:Int).toNat).Nodup ∧
     (designRows 2 7 3).length = (7:Int).toNat.choose (3:Int).toNat ∧
     (∀ S ∈ ksubsets 7 (3:Int).toNat,
       (designRowFor 7 2 S).length = (3:Int).toNat.choose (2:Int).toNat ∧
       (designRowFor 7 2 S).Nodup ∧
       (∀ r ∈ designRowFor 7 2 S, r < (designColumns 7 2).length) ∧
       (∀ T ∈ ksubsets 7 (2:Int).toNat,
         (pyrank 7 T ∈ designRowFor 7 2 S ↔ T.toFinset ⊆ S.toFinset)))) :=
  ⟨⟨by decide, by decide, by decide⟩,
    designColumnsRows_spec 2 7 3 (by decide) (by decide) (by decide)⟩

/-! ### Design decoding (C8) -/

theorem mapM_eq_some_forall₂ {α β : Type} (f : α → Option β) :
    ∀ {l : List α} {out : List β},
      List.Forall₂ (fun a b => f a = some b) l out → l.mapM f = some out := by
  intro l out h
  induction h with
  | nil => rfl
  | cons hab _ ih =>
    rw [List.mapM_cons, hab, ih]
    rfl

/-- Any element of a list of length ≥ t lies in some sublist of length
exactly t (for t ≥ 1). -/
theorem exists_sublist_len_mem {α : Type} {l : List α} {x : α} (hx : x ∈ l)
    {t : Nat} (ht : 1 ≤ t) (hlen : t ≤ l.length) :
    ∃ T : List α, T.Sublist l ∧ T.length = t ∧ x ∈ T := by
  obtain ⟨A, B, rfl⟩ := List.append_of_mem hx
  rw [List.length_append, List.length_cons] at hlen
  refine ⟨A.take (min (t-1) A.length) ++ x :: B.take (t - 1 - min (t-1) A.length),
    ?_, ?_, ?_⟩
  · exact List.Sublist.append (List.take_sublist _ _)
      (List.Sublist.cons₂ x (List.take_sublist _ _))
  · rw [List.length_append, List.length_cons, List.length_take, List.length_take]
    omega
  · simp

/-- The union of the t-element sublists of `S` recovers `S` (as a set),
whenever `1 ≤ t ≤ |S|`. -/
theorem flatten_subsetsOf_toFinset {S : List Int} {t : Nat} (ht : 1 ≤ t)
    (hlen : t ≤ S.length) :
    ((subsetsOf S t).flatten).toFinset = S.toFinset := by
  ext x
  simp only [List.mem_toFinset, List.mem_flatten]
  constructor
  · rintro ⟨T, hT, hx⟩
    exact ((mem_subsetsOf.mp hT).1).subset hx
  · intro hx
    obtain ⟨T, hsub, hlenT, hxT⟩ := exists_sublist_len_mem hx ht hlen
    exact ⟨T, mem_subsetsOf.mpr ⟨hsub, hlenT⟩, hxT⟩

theorem designInit_fields {t v k : Int} {fl : Bool} {inst : DesignInstance}
    (h : designInit t v k fl = some inst) :
    inst.columns = designColumns v t ∧ inst.rows = designRows t v k := by
  cases fl with
  | false =>
    have h' := Option.some_inj.mp h
    rw [← h']
    exact ⟨rfl, rfl⟩
  | true =>
    rcases Option.bind_eq_some.mp h with ⟨blocks, _, h2⟩
    rcases Option.map_eq_some'.mp h2 with ⟨used, _, h3⟩
    rw [← h3]
    exact ⟨rfl, rfl⟩

/-- C8: for every instance built by `DesignDLX.__init__` and every k-subset
`S`, decoding the row of rank `S` (the union of the t-subsets that row
covers, as computed by `printSolution`) recovers exactly `S`. -/
theorem designDecode_spec (t v k : Int) (ht : 1 ≤ t) (htk : t ≤ k) (hkv : k ≤ v)
    (fl : Bool) (inst : DesignInstance) (hinst : designInit t v k fl = some inst) :
    ∀ S ∈ ksubsets v k.toNat, decodeBlock inst (pyrank v S) = some S.toFinset := by
  obtain ⟨hcols, hrows⟩ := designInit_fields hinst
  intro S hS
  have hSlen : S.length = k.toNat := (mem_ksubsets.mp hS).2
  have hget : inst.rows.get? (pyrank v S) = some (designRowFor v t S) := by
    rw [hrows, designRows, List.get?_map, List.get?_eq_get (pyrank_lt hS), get_pyrank hS]
    rfl
  have hmemk : ∀ T ∈ subsetsOf S t.toNat, T ∈ ksubsets v t.toNat := by
    intro T hT
    exact mem_ksubsets.mpr
      ⟨((mem_subsetsOf.mp hT).1).trans (mem_ksubsets.mp hS).1, (mem_subsetsOf.mp hT).2⟩
  have hmapM : (designRowFor v t S).mapM (fun c => inst.columns.get? c)
      = some (subsetsOf S t.toNat) := by
    refine mapM_eq_some_forall₂ _ ?_
    rw [designRowFor]
    refine List.forall₂_map_left_iff.mpr ?_
    refine List.forall₂_same.mpr ?_
    intro T hT
    rw [hcols]
    show (ksubsets v t.toNat).get? (pyrank v T) = some T
    rw [List.get?_eq_get (pyrank_lt (hmemk T hT)), get_pyrank (hmemk T hT)]
  rw [decodeBlock, getRowList, hget, Option.some_bind, hmapM, Option.map_some']
  congr 1
  refine flatten_subsetsOf_toFinset (by omega) ?_
  rw [hSlen]
  omega

/-- Witness for C8 at (t,v,k) = (2,7,3), S = {0,1,2}. -/
theorem designDecode_spec_witness :
    ((1:Int) ≤ 2 ∧ (2:Int) ≤ 3 ∧ (3:Int) ≤ 7 ∧
      designInit 2 7 3 false = some ⟨2, 7, 3, designColumns 7 2, designRows 2 7 3,
        List.range (designRows 2 7 3).length, [], []⟩ ∧
      ([0,1,2] : List Int) ∈ ksubsets 7 (3:Int).toNat) ∧
    decodeBlock ⟨2, 7, 3, designColumns 7 2, designRows 2 7 3,
        List.range (designRows 2 7 3).length, [], []⟩ (pyrank 7 [0,1,2])
      = some ([0,1,2] : List Int).toFinset :=
  ⟨⟨by decide, by decide, by decide, rfl, by decide⟩,
    designDecode_spec 2 7 3 (by decide) (by decide) (by decide) false
      ⟨2, 7, 3, designColumns 7 2, designRows 2 7 3,
        List.range (designRows 2 7 3).length, [], []⟩ rfl [0,1,2] (by decide)⟩

/-! ### Generic association-list and block-layout lemmas -/

/-- First-match lookup in an association list with duplicate-free keys
finds the unique entry (Python dict semantics). -/
theorem find?_assoc_of_nodup {α β : Type} [BEq α] [LawfulBEq α] :
    ∀ (l : List (α × β)), ((l.map Prod.fst).Nodup) → ∀ (a : α) (b : β), (a, b) ∈ l →
      l.find? (fun p => p.1 == a) = some (a, b) := by
  intro l
  induction l with
  | nil => intro _ a b hmem; cases hmem
  | cons x xs ih =>
    intro hnd a b hmem
    show cond (x.1 == a) (some x) (xs.find? fun p => p.1 == a) = some (a, b)
    by_cases hx : (x.1 == a) = true
    · rw [hx]
      show some x = some (a, b)
      rcases List.mem_cons.mp hmem with rfl | hm'
      · rfl
      · exfalso
        have hax : x.1 = a := eq_of_beq hx
        have hmemf : a ∈ xs.map Prod.fst := by
          have := List.mem_map_of_mem Prod.fst hm'
          simpa using this
        have hnd' : x.1 ∉ xs.map Prod.fst := (List.nodup_cons.mp (by simpa using hnd)).1
        rw [hax] at hnd'
        exact hnd' hmemf
    · rw [Bool.not_eq_true] at hx
      rw [hx]
      show xs.find? (fun p => p.1 == a) = some (a, b)
      refine ih (List.nodup_cons.mp (by simpa using hnd)).2 a b ?_
      rcases List.mem_cons.mp hmem with rfl | hm'
      · simp at hx
      · exact hm'

theorem length_bind_const {α β : Type} (g : α → List β) (m : Nat) :
    ∀ l : List α, (∀ a ∈ l, (g a).length = m) → (l.bind g).length = l.length * m := by
  intro l
  induction l with
  | nil => intro _; simp
  | cons x xs ih =>
    intro h
    show (g x ++ xs.bind g).length = (x :: xs).length * m
    rw [List.length_append, h x (by simp),
      ih (fun a ha => h a (by simp [ha])), List.length_cons]
    ring

/-- Positional access inside a concatenation of constant-length chunks. -/
theorem get?_bind_const {α β : Type} (g : α → List β) (m : Nat) :
    ∀ (l : List α) (i j : Nat), j < m → (∀ a ∈ l, (g a).length = m) →
      ∀ hi : i < l.length,
      (l.bind g).get? (i * m + j) = (g (l.get ⟨i, hi⟩)).get? j := by
  intro l
  induction l with
  | nil => intro i j _ _ hi; simp at hi
  | cons x xs ih =>
    intro i j hj hm hi
    show (g x ++ xs.bind g).get? (i * m + j) = _
    cases i with
    | zero =>
      rw [Nat.zero_mul, Nat.zero_add]
      rw [List.get?_append (by rw [hm x (by simp)]; omega)]
      rfl
    | succ i' =>
      have he : (i' + 1) * m + j = (g x).length + (i' * m + j) := by
        rw [hm x (by simp)]
        ring
      rw [he, List.get?_append_right (by omega)]
      have he2 : (g x).length + (i' * m + j) - (g x).length = i' * m + j := by omega
      rw [he2]
      exact ih i' j hj (fun a ha => hm a (by simp [ha])) (by simpa using hi)

theorem nodup_bind2 {β : Type} [DecidableEq β] (n m : Nat) (f : Nat → Nat → β)
    (hinj : ∀ i j i' j', i < n → j < m → i' < n → j' < m →
      f i j = f i' j' → i = i' ∧ j = j') :
    ((List.range n).bind fun i => (List.range m).map fun j => f i j).Nodup := by
  rw [List.nodup_bind]
  constructor
  · intro i hi
    refine List.Nodup.map_on ?_ (List.nodup_range m)
    intro j hj j' hj' he
    exact (hinj i j i j' (List.mem_range.mp hi) (List.mem_range.mp hj)
      (List.mem_range.mp hi) (List.mem_range.mp hj') he).2
  · refine List.Pairwise.imp_of_mem ?_ (List.pairwise_lt_range n)
    intro i i' hi hi' hlt x hx hx'
    rcases List.mem_map.mp hx with ⟨j, hj, rfl⟩
    rcases List.mem_map.mp hx' with ⟨j', hj', he⟩
    have := (hinj i' j' i j (List.mem_range.mp hi') (List.mem_range.mp hj')
      (List.mem_range.mp hi) (List.mem_range.mp hj) he).1
    omega

theorem nodup_bind3 {β : Type} [DecidableEq β] (n m p : Nat) (f : Nat → Nat → Nat → β)
    (hinj : ∀ a b c a' b' c', a < n → b < m → c < p → a' < n → b' < m → c' < p →
      f a b c = f a' b' c' → a = a' ∧ b = b' ∧ c = c') :
    ((List.range n).bind fun a =>
      (List.range m).bind fun b => (List.range p).map fun c => f a b c).Nodup := by
  rw [List.nodup_bind]
  constructor
  · intro a ha
    refine nodup_bind2 m p (f a) ?_
    intro b c b' c' hb hc hb' hc' he
    have haa := List.mem_range.mp ha
    exact ((hinj a b c a b' c' haa hb hc haa hb' hc' he).2)
  · refine List.Pairwise.imp_of_mem ?_ (List.pairwise_lt_range n)
    intro a a' ha ha' hlt x hx hx'
    simp only [List.mem_bind, List.mem_map, List.mem_range] at hx hx'
    rcases hx with ⟨b, hb, c, hc, rfl⟩
    rcases hx' with ⟨b', hb', c', hc', he⟩
    have := (hinj a' b' c' a b c (List.mem_range.mp ha') hb' hc'
      (List.mem_range.mp ha) hb hc he).1
    omega

/-! ### Sudoku construction: no input validation (C2) -/

/-- C2 counterexample: for dim = 1 the board `"11"` has length 2 ≠ dim⁴ = 1,
yet `DLXsudoku("11", 1)` constructs successfully — the loop only reads the
first dim⁴ characters and no `InputValidationError` exists in the code. -/
theorem sudokuInit_validation_cex :
    ¬((['1', '1'] : List Char).length = 1^4) ∧
    (sudokuInit ['1', '1'] 1).isSome = true :=
  ⟨by decide, by decide⟩

theorem mapM_isSome {α β : Type} (f : α → Option β) :
    ∀ l : List α, (l.mapM f).isSome = true ↔ ∀ a ∈ l, (f a).isSome = true := by
  intro l
  induction l with
  | nil =>
    exact ⟨fun _ a ha => absurd ha (List.not_mem_nil a), fun _ => rfl⟩
  | cons a l ih =>
    rw [List.mapM_cons]
    rcases ha : f a with _ | b
    · simp [ha, List.forall_mem_cons]
    · rcases hl : l.mapM f with _ | out
      · have hl' : List.mapM.loop f l [] = none := hl
        simp [ha, hl, hl', List.forall_mem_cons, ← ih]
      · have hl' : List.mapM.loop f l [] = some out := hl
        simp [ha, hl, hl', List.forall_mem_cons, ← ih]

theorem mem_sudokuTriples {dim i j k : Nat} :
    (i, j, k) ∈ sudokuTriples dim ↔
      i < dim^2 ∧ j < dim^2 ∧ 1 ≤ k ∧ k ≤ dim^2 := by
  simp only [sudokuTriples, List.mem_bind, List.mem_map, List.mem_range, Prod.mk.injEq]
  constructor
  · rintro ⟨a, ha, b, hb, c, hc, rfl, rfl, rfl⟩
    omega
  · rintro ⟨hi, hj, hk1, hk2⟩
    exact ⟨i, hi, j, hj, k - 1, by omega, rfl, rfl, by omega⟩

theorem sdictFind_isSome {dim : Nat} {n : ColName}
    (h : ∃ x ∈ sudokuCols dim, x.1 = n) : (sdictFind dim n).isSome = true := by
  rw [sdictFind]
  rcases hf : (sudokuCols dim).find? (fun p => p.1 == n) with _ | x
  · exfalso
    rcases h with ⟨x, hx, he⟩
    have hnp := List.find?_eq_none.mp hf x hx
    simp [he] at hnp
  · rw [hf]
    rfl

theorem sudokuRowFor_isSome {dim i j k : Nat}
    (hi : i < dim^2) (hj : j < dim^2) (hk1 : 1 ≤ k) (hk2 : k ≤ dim^2) :
    (sudokuRowFor dim (i, j, k)).isSome = true := by
  have hdim : 1 ≤ dim := by
    by_contra h
    have : dim = 0 := by omega
    subst this
    omega
  have hdq : i / dim < dim := Nat.div_lt_of_lt_mul (by
    have : dim^2 = dim * dim := pow_two dim
    omega)
  have hdq' : j / dim < dim := Nat.div_lt_of_lt_mul (by
    have : dim^2 = dim * dim := pow_two dim
    omega)
  have h1 : (sdictFind dim (ColName.r i k)).isSome = true := by
    refine sdictFind_isSome ⟨(ColName.r i k, i*dim^2 + k - 1), ?_, rfl⟩
    rw [sudokuCols]
    refine List.mem_append_left _ (List.mem_append_left _ (List.mem_append_left _ ?_))
    refine List.mem_bind.mpr ⟨i, List.mem_range.mpr hi, ?_⟩
    exact List.mem_map.mpr ⟨k - 1, List.mem_range.mpr (by omega), by
      have : k - 1 + 1 = k := by omega
      rw [this]⟩
  have h2 : (sdictFind dim (ColName.c j k)).isSome = true := by
    refine sdictFind_isSome ⟨(ColName.c j k, dim^2*dim^2 + j*dim^2 + k - 1), ?_, rfl⟩
    rw [sudokuCols]
    refine List.mem_append_left _ (List.mem_append_left _ (List.mem_append_right _ ?_))
    refine List.mem_bind.mpr ⟨j, List.mem_range.mpr hj, ?_⟩
    exact List.mem_map.mpr ⟨k - 1, List.mem_range.mpr (by omega), by
      have : k - 1 + 1 = k := by omega
      rw [this]⟩
  have h3 : (sdictFind dim (ColName.g (i/dim) (j/dim) k)).isSome = true := by
    refine sdictFind_isSome
      ⟨(ColName.g (i/dim) (j/dim) k,
        2*(dim^2*dim^2) + ((i/dim)*dim+(j/dim))*dim^2 + k - 1), ?_, rfl⟩
    rw [sudokuCols]
    refine List.mem_append_left _ (List.mem_append_right _ ?_)
    refine List.mem_bind.mpr ⟨i/dim, List.mem_range.mpr hdq, ?_⟩
    refine List.mem_bind.mpr ⟨j/dim, List.mem_range.mpr hdq', ?_⟩
    exact List.mem_map.mpr ⟨k - 1, List.mem_range.mpr (by omega), by
      have : k - 1 + 1 = k := by omega
      rw [this]⟩
  have h4 : (sdictFind dim (ColName.e i j)).isSome = true := by
    refine sdictFind_isSome ⟨(ColName.e i j, 3*(dim^2*dim^2) + i*dim^2 + j), ?_, rfl⟩
    rw [sudokuCols]
    refine List.mem_append_right _ ?_
    refine List.mem_bind.mpr ⟨i, List.mem_range.mpr hi, ?_⟩
    exact List.mem_map.mpr ⟨j, List.mem_range.mpr hj, rfl⟩
  rcases Option.isSome_iff_exists.mp h1 with ⟨a, ha⟩
  rcases Option.isSome_iff_exists.mp h2 with ⟨b, hb⟩
  rcases Option.isSome_iff_exists.mp h3 with ⟨c, hc⟩
  rcases Option.isSome_iff_exists.mp h4 with ⟨d, hd⟩
  simp [sudokuRowFor, ha, hb, hc, hd]

theorem sudokuRowsPhase_isSome (dim : Nat) :
    ((sudokuTriples dim).mapM (sudokuRowFor dim)).isSome = true := by
  rw [mapM_isSome]
  rintro ⟨i, j, k⟩ hp
  obtain ⟨hi, hj, hk1, hk2⟩ := mem_sudokuTriples.mp hp
  exact sudokuRowFor_isSome hi hj hk1 hk2

theorem rowdict_keys_eq (dim : Nat) :
    (sudokuRowdict dim).map Prod.fst = sudokuTriples dim := by
  rw [sudokuRowdict, List.map_map]
  have h2 : ((sudokuTriples dim).enum).map (Prod.fst ∘ fun p => (p.2, p.1))
      = (sudokuTriples dim).enum.map Prod.snd := by
    refine List.map_congr_left ?_
    intro p _
    rfl
  rw [h2, List.enum_map_snd]

theorem rowdictFind_isSome_iff {dim : Nat} {key : Nat × Nat × Nat} :
    (rowdictFind dim key).isSome = true ↔ key ∈ sudokuTriples dim := by
  rw [rowdictFind]
  constructor
  · intro hs
    rcases hf : (sudokuRowdict dim).find? (fun p => p.1 == key) with _ | x
    · rw [hf] at hs
      exact absurd hs (by simp)
    · have hx := List.mem_of_find?_eq_some hf
      have hk : x.1 = key := by
        have := List.find?_some hf
        simpa using this
      have hmem : x.1 ∈ (sudokuRowdict dim).map Prod.fst := List.mem_map_of_mem _ hx
      rw [rowdict_keys_eq, hk] at hmem
      exact hmem
  · intro hmem
    rw [← rowdict_keys_eq] at hmem
    rcases List.mem_map.mp hmem with ⟨p, hp, he⟩
    rcases hf : (sudokuRowdict dim).find? (fun q => q.1 == key) with _ | x
    · exfalso
      have hnp := List.find?_eq_none.mp hf p hp
      simp [he] at hnp
    · rw [hf]
      rfl

theorem clueLoop_isSome_iff (dim : Nat) (grid : List Char) :
    ∀ l : List Nat, (clueLoop dim grid l).isSome = true ↔
      ∀ idx ∈ l, ∃ c, grid.get? idx = some c ∧
        (c = '0' ∨ ∃ d, charToInt c = some d ∧
          (rowdictFind dim (idx / dim^2, idx % dim^2, d)).isSome = true) := by
  intro l
  induction l with
  | nil => simp [clueLoop]
  | cons idx rest ih =>
    rw [clueLoop, List.forall_mem_cons]
    rcases hc : grid.get? idx with _ | c
    · simp [hc]
    · by_cases h0 : c = '0'
      · simp [hc, h0, ih]
      · rcases hd : charToInt c with _ | d
        · simp [hc, h0, hd]
        · rcases hr : rowdictFind dim (idx / dim^2, idx % dim^2, d) with _ | a
          · simp [hc, h0, hd, hr]
          · rcases hrest : clueLoop dim grid rest with _ | rs
            · rw [hrest] at ih
              constructor
              · intro h
                exfalso
                simp [hc, h0, hd, hr, hrest] at h
              · rintro ⟨_, hrestcond⟩
                exact absurd (ih.mpr hrestcond) (by simp)
            · rw [hrest] at ih
              constructor
              · intro _
                exact ⟨⟨c, rfl, Or.inr ⟨d, hd, by rw [hr]; rfl⟩⟩, ih.mp rfl⟩
              · intro _
                simp [hc, h0, hd, hr, hrest]

/-- C2 (amended): `DLXsudoku.__init__` performs no explicit validation.
Construction succeeds iff each of the first dim⁴ board positions holds a
character that is `'0'` or a digit with value in `[1, dim²]` — in
particular a board **longer** than dim⁴ is accepted (extra characters are
ignored, see `sudokuInit_validation_cex`), while a too-short board or a
bad character fails with a generic lookup error (`IndexError` /
`ValueError` / `KeyError`), not an `InputValidationError`. -/
theorem sudokuInit_isSome_iff (grid : List Char) (dim : Nat) :
    (sudokuInit grid dim).isSome = true ↔
      ∀ idx, idx < dim^4 → ∃ c, grid.get? idx = some c ∧
        (c = '0' ∨ (c.isDigit ∧ 1 ≤ c.toNat - '0'.toNat ∧ c.toNat - '0'.toNat ≤ dim^2)) := by
  have hpow : (dim^2)^2 = dim^4 := by ring
  have hrows := sudokuRowsPhase_isSome dim
  rcases hrows' : (sudokuTriples dim).mapM (sudokuRowFor dim) with _ | rows
  · rw [hrows'] at hrows
    simp at hrows
  · have hmain : (sudokuInit grid dim).isSome = true ↔
        (clueLoop dim grid (List.range ((dim^2)^2))).isSome = true := by
      have hrows2 : List.mapM.loop (sudokuRowFor dim) (sudokuTriples dim) [] = some rows :=
        hrows'
      rcases hcl : clueLoop dim grid (List.range ((dim^2)^2)) with _ | forced
      · simp [sudokuInit, hrows', hrows2, hcl]
      · simp [sudokuInit, hrows', hrows2, hcl]
    rw [hmain, clueLoop_isSome_iff]
    have hidx : ∀ idx, idx ∈ List.range ((dim^2)^2) ↔ idx < dim^4 := by
      intro idx
      rw [List.mem_range, hpow]
    constructor
    · intro h idx hlt
      obtain ⟨c, hc, hcase⟩ := h idx ((hidx idx).mpr hlt)
      refine ⟨c, hc, ?_⟩
      rcases hcase with h0 | ⟨d, hd, hr⟩
      · exact Or.inl h0
      · right
        have hdig : c.isDigit := by
          by_contra hnd
          rw [charToInt, if_neg hnd] at hd
          exact Option.noConfusion hd
        have hdval : d = c.toNat - '0'.toNat := by
          rw [charToInt, if_pos hdig] at hd
          exact (Option.some_inj.mp hd).symm
        have hmem := rowdictFind_isSome_iff.mp hr
        obtain ⟨_, _, hk1, hk2⟩ := mem_sudokuTriples.mp hmem
        subst hdval
        exact ⟨hdig, hk1, hk2⟩
    · intro h idx hlt
      obtain ⟨c, hc, hcase⟩ := h idx ((hidx idx).mp hlt)
      refine ⟨c, hc, ?_⟩
      by_cases h0 : c = '0'
      · exact Or.inl h0
      · rcases hcase with h0' | ⟨hdig, hv1, hv2⟩
        · exact absurd h0' h0
        · right
          refine ⟨c.toNat - '0'.toNat, by rw [charToInt, if_pos hdig], ?_⟩
          refine rowdictFind_isSome_iff.mpr (mem_sudokuTriples.mpr ⟨?_, ?_, hv1, hv2⟩)
          · have hdim : 1 ≤ dim := by
              by_contra hd
              have h00 : dim = 0 := by omega
              subst h00
              simp at hlt
            have h1 : idx < dim^2 * dim^2 := by
              have hm := List.mem_range.mp hlt
              have e4 : (dim^2)^2 = dim^2 * dim^2 := pow_two _
              rw [e4] at hm
              exact hm
            exact Nat.div_lt_of_lt_mul h1
          · have hdim : 0 < dim^2 := by
              by_contra hd
              have h00 : dim = 0 := by omega
              subst h00
              simp at hlt
            exact Nat.mod_lt _ hdim

/-! ### Sudoku column layout (C7, C10) -/

theorem block_idx_lt {n a b : Nat} (ha : a < n) (hb1 : 1 ≤ b) (hb2 : b ≤ n) :
    a*n + b - 1 < n*n := by
  have h : (a+1)*n ≤ n*n := Nat.mul_le_mul_right n (by omega)
  have he : (a+1)*n = a*n + n := by ring
  omega

theorem block_idx_lt' {n a b : Nat} (ha : a < n) (hb : b < n) : a*n + b < n*n := by
  have h : (a+1)*n ≤ n*n := Nat.mul_le_mul_right n (by omega)
  have he : (a+1)*n = a*n + n := by ring
  omega

theorem sudokuColNames_eq (dim : Nat) :
    (sudokuCols dim).map Prod.fst =
      ((List.range (dim^2)).bind fun i =>
        (List.range (dim^2)).map fun j0 => ColName.r i (j0+1)) ++
      ((List.range (dim^2)).bind fun i =>
        (List.range (dim^2)).map fun j0 => ColName.c i (j0+1)) ++
      ((List.range dim).bind fun i => (List.range dim).bind fun j =>
        (List.range (dim^2)).map fun k0 => ColName.g i j (k0+1)) ++
      ((List.range (dim^2)).bind fun i =>
        (List.range (dim^2)).map fun j => ColName.e i j) := by
  rw [sudokuCols]
  simp [List.map_bind, List.map_map, Function.comp_def]

theorem sudokuColNames_nodup (dim : Nat) : ((sudokuCols dim).map Prod.fst).Nodup := by
  rw [sudokuColNames_eq]
  have h1 : ((List.range (dim^2)).bind fun i =>
      (List.range (dim^2)).map fun j0 => ColName.r i (j0+1)).Nodup := by
    refine nodup_bind2 _ _ _ ?_
    intro i j i' j' _ _ _ _ he
    simp only [ColName.r.injEq] at he
    omega
  have h2 : ((List.range (dim^2)).bind fun i =>
      (List.range (dim^2)).map fun j0 => ColName.c i (j0+1)).Nodup := by
    refine nodup_bind2 _ _ _ ?_
    intro i j i' j' _ _ _ _ he
    simp only [ColName.c.injEq] at he
    omega
  have h3 : ((List.range dim).bind fun i => (List.range dim).bind fun j =>
      (List.range (dim^2)).map fun k0 => ColName.g i j (k0+1)).Nodup := by
    refine nodup_bind3 _ _ _ _ ?_
    intro a b c a' b' c' _ _ _ _ _ _ he
    simp only [ColName.g.injEq] at he
    omega
  have h4 : ((List.range (dim^2)).bind fun i =>
      (List.range (dim^2)).map fun j => ColName.e i j).Nodup := by
    refine nodup_bind2 _ _ _ ?_
    intro i j i' j' _ _ _ _ he
    simp only [ColName.e.injEq] at he
    omega
  have hrS : ∀ x ∈ ((List.range (dim^2)).bind fun i =>
      (List.range (dim^2)).map fun j0 => ColName.r i (j0+1)), ∃ a b, x = ColName.r a b := by
    intro x hx
    simp only [List.mem_bind, List.mem_map, List.mem_range] at hx
    obtain ⟨i, _, j, _, rfl⟩ := hx
    exact ⟨i, j+1, rfl⟩
  have hcS : ∀ x ∈ ((List.range (dim^2)).bind fun i =>
      (List.range (dim^2)).map fun j0 => ColName.c i (j0+1)), ∃ a b, x = ColName.c a b := by
    intro x hx
    simp only [List.mem_bind, List.mem_map, List.mem_range] at hx
    obtain ⟨i, _, j, _, rfl⟩ := hx
    exact ⟨i, j+1, rfl⟩
  have hgS : ∀ x ∈ ((List.range dim).bind fun i => (List.range dim).bind fun j =>
      (List.range (dim^2)).map fun k0 => ColName.g i j (k0+1)), ∃ a b c, x = ColName.g a b c := by
    intro x hx
    simp only [List.mem_bind, List.mem_map, List.mem_range] at hx
    obtain ⟨i, _, j, _, k, _, rfl⟩ := hx
    exact ⟨i, j, k+1, rfl⟩
  have heS : ∀ x ∈ ((List.range (dim^2)).bind fun i =>
      (List.range (dim^2)).map fun j => ColName.e i j), ∃ a b, x = ColName.e a b := by
    intro x hx
    simp only [List.mem_bind, List.mem_map, List.mem_range] at hx
    obtain ⟨i, _, j, _, rfl⟩ := hx
    exact ⟨i, j, rfl⟩
  refine List.Nodup.append (List.Nodup.append (List.Nodup.append h1 h2 ?d12) h3 ?d123)
    h4 ?d1234
  case d12 =>
    intro x hx hx'
    obtain ⟨a', b', he⟩ := hcS x hx'
    obtain ⟨a, b, rfl⟩ := hrS x hx
    exact ColName.noConfusion he
  case d123 =>
    intro x hx hx'
    rcases List.mem_append.mp hx with hx1 | hx2
    · obtain ⟨a', b', c', he⟩ := hgS x hx'
      obtain ⟨a, b, rfl⟩ := hrS x hx1
      exact ColName.noConfusion he
    · obtain ⟨a', b', c', he⟩ := hgS x hx'
      obtain ⟨a, b, rfl⟩ := hcS x hx2
      exact ColName.noConfusion he
  case d1234 =>
    intro x hx hx'
    rcases List.mem_append.mp hx with hx12 | hx3
    · rcases List.mem_append.mp hx12 with hx1 | hx2
      · obtain ⟨a', b', he⟩ := heS x hx'
        obtain ⟨a, b, rfl⟩ := hrS x hx1
        exact ColName.noConfusion he
      · obtain ⟨a', b', he⟩ := heS x hx'
        obtain ⟨a, b, rfl⟩ := hcS x hx2
        exact ColName.noConfusion he
    · obtain ⟨a', b', he⟩ := heS x hx'
      obtain ⟨a, b, c, rfl⟩ := hgS x hx3
      exact ColName.noConfusion he

theorem mem_sudokuCols_r {dim i k : Nat} (hi : i < dim^2) (hk1 : 1 ≤ k) (hk2 : k ≤ dim^2) :
    (ColName.r i k, i*dim^2 + k - 1) ∈ sudokuCols dim := by
  rw [sudokuCols]
  refine List.mem_append_left _ (List.mem_append_left _ (List.mem_append_left _ ?_))
  refine List.mem_bind.mpr ⟨i, List.mem_range.mpr hi, ?_⟩
  refine List.mem_map.mpr ⟨k - 1, List.mem_range.mpr (by omega), ?_⟩
  have hke : k - 1 + 1 = k := by omega
  rw [hke]

theorem mem_sudokuCols_c {dim j k : Nat} (hj : j < dim^2) (hk1 : 1 ≤ k) (hk2 : k ≤ dim^2) :
    (ColName.c j k, dim^2*dim^2 + j*dim^2 + k - 1) ∈ sudokuCols dim := by
  rw [sudokuCols]
  refine List.mem_append_left _ (List.mem_append_left _ (List.mem_append_right _ ?_))
  refine List.mem_bind.mpr ⟨j, List.mem_range.mpr hj, ?_⟩
  refine List.mem_map.mpr ⟨k - 1, List.mem_range.mpr (by omega), ?_⟩
  have hke : k - 1 + 1 = k := by omega
  rw [hke]

theorem mem_sudokuCols_g {dim gi gj k : Nat} (hgi : gi < dim) (hgj : gj < dim)
    (hk1 : 1 ≤ k) (hk2 : k ≤ dim^2) :
    (ColName.g gi gj k, 2*(dim^2*dim^2) + (gi*dim+gj)*dim^2 + k - 1) ∈ sudokuCols dim := by
  rw [sudokuCols]
  refine List.mem_append_left _ (List.mem_append_right _ ?_)
  refine List.mem_bind.mpr ⟨gi, List.mem_range.mpr hgi, ?_⟩
  refine List.mem_bind.mpr ⟨gj, List.mem_range.mpr hgj, ?_⟩
  refine List.mem_map.mpr ⟨k - 1, List.mem_range.mpr (by omega), ?_⟩
  have hke : k - 1 + 1 = k := by omega
  rw [hke]

theorem mem_sudokuCols_e {dim i j : Nat} (hi : i < dim^2) (hj : j < dim^2) :
    (ColName.e i j, 3*(dim^2*dim^2) + i*dim^2 + j) ∈ sudokuCols dim := by
  rw [sudokuCols]
  refine List.mem_append_right _ ?_
  refine List.mem_bind.mpr ⟨i, List.mem_range.mpr hi, ?_⟩
  exact List.mem_map.mpr ⟨j, List.mem_range.mpr hj, rfl⟩

theorem sdictFind_r {dim i k : Nat} (hi : i < dim^2) (hk1 : 1 ≤ k) (hk2 : k ≤ dim^2) :
    sdictFind dim (ColName.r i k) = some (i*dim^2 + k - 1) := by
  rw [sdictFind, find?_assoc_of_nodup _ (sudokuColNames_nodup dim) _ _
    (mem_sudokuCols_r hi hk1 hk2)]
  rfl

theorem sdictFind_c {dim j k : Nat} (hj : j < dim^2) (hk1 : 1 ≤ k) (hk2 : k ≤ dim^2) :
    sdictFind dim (ColName.c j k) = some (dim^2*dim^2 + j*dim^2 + k - 1) := by
  rw [sdictFind, find?_assoc_of_nodup _ (sudokuColNames_nodup dim) _ _
    (mem_sudokuCols_c hj hk1 hk2)]
  rfl

theorem sdictFind_g {dim gi gj k : Nat} (hgi : gi < dim) (hgj : gj < dim)
    (hk1 : 1 ≤ k) (hk2 : k ≤ dim^2) :
    sdictFind dim (ColName.g gi gj k)
      = some (2*(dim^2*dim^2) + (gi*dim+gj)*dim^2 + k - 1) := by
  rw [sdictFind, find?_assoc_of_nodup _ (sudokuColNames_nodup dim) _ _
    (mem_sudokuCols_g hgi hgj hk1 hk2)]
  rfl

theorem sdictFind_e {dim i j : Nat} (hi : i < dim^2) (hj : j < dim^2) :
    sdictFind dim (ColName.e i j) = some (3*(dim^2*dim^2) + i*dim^2 + j) := by
  rw [sdictFind, find?_assoc_of_nodup _ (sudokuColNames_nodup dim) _ _
    (mem_sudokuCols_e hi hj)]
  rfl

theorem length_rNames (dim : Nat) :
    ((List.range (dim^2)).bind fun i =>
      (List.range (dim^2)).map fun j0 => ColName.r i (j0+1)).length = dim^2 * dim^2 := by
  rw [length_bind_const _ (dim^2) _ (fun a _ => by simp)]
  simp

theorem length_cNames (dim : Nat) :
    ((List.range (dim^2)).bind fun i =>
      (List.range (dim^2)).map fun j0 => ColName.c i (j0+1)).length = dim^2 * dim^2 := by
  rw [length_bind_const _ (dim^2) _ (fun a _ => by simp)]
  simp

theorem length_gNames (dim : Nat) :
    ((List.range dim).bind fun i => (List.range dim).bind fun j =>
      (List.range (dim^2)).map fun k0 => ColName.g i j (k0+1)).length
      = dim * (dim * dim^2) := by
  rw [length_bind_const _ (dim * dim^2) _ ?_]
  · simp
  · intro a _
    rw [length_bind_const _ (dim^2) _ (fun b _ => by simp)]
    simp

theorem length_eNames (dim : Nat) :
    ((List.range (dim^2)).bind fun i =>
      (List.range (dim^2)).map fun j => ColName.e i j).length = dim^2 * dim^2 := by
  rw [length_bind_const _ (dim^2) _ (fun a _ => by simp)]
  simp

theorem sudokuColNames_get_r {dim i k : Nat} (hi : i < dim^2) (hk1 : 1 ≤ k)
    (hk2 : k ≤ dim^2) :
    ((sudokuCols dim).map Prod.fst).get? (i*dim^2 + k - 1) = some (ColName.r i k) := by
  rw [sudokuColNames_eq]
  have hidx : i*dim^2 + k - 1 < dim^2*dim^2 := block_idx_lt hi hk1 hk2
  rw [List.get?_append (by
    rw [List.length_append, List.length_append, length_rNames, length_cNames,
      length_gNames]
    omega)]
  rw [List.get?_append (by
    rw [List.length_append, length_rNames, length_cNames]
    omega)]
  rw [List.get?_append (by rw [length_rNames]; omega)]
  have he : i*dim^2 + k - 1 = i * dim^2 + (k - 1) := by omega
  rw [he, get?_bind_const _ (dim^2) _ i (k-1) (by omega) (fun a _ => by simp)
    (by simpa using hi)]
  rw [List.get_range, List.get?_map, List.get?_range (by omega)]
  have hke : k - 1 + 1 = k := by omega
  simp [hke]

theorem sudokuColNames_get_c {dim j k : Nat} (hj : j < dim^2) (hk1 : 1 ≤ k)
    (hk2 : k ≤ dim^2) :
    ((sudokuCols dim).map Prod.fst).get? (dim^2*dim^2 + j*dim^2 + k - 1)
      = some (ColName.c j k) := by
  rw [sudokuColNames_eq]
  have hidx : j*dim^2 + k - 1 < dim^2*dim^2 := block_idx_lt hj hk1 hk2
  rw [List.get?_append (by
    rw [List.length_append, List.length_append, length_rNames, length_cNames,
      length_gNames]
    omega)]
  rw [List.get?_append (by
    rw [List.length_append, length_rNames, length_cNames]
    omega)]
  rw [List.get?_append_right (by rw [length_rNames]; omega)]
  rw [length_rNames]
  have he : dim^2*dim^2 + j*dim^2 + k - 1 - dim^2*dim^2 = j * dim^2 + (k - 1) := by omega
  rw [he, get?_bind_const _ (dim^2) _ j (k-1) (by omega) (fun a _ => by simp)
    (by simpa using hj)]
  rw [List.get_range, List.get?_map, List.get?_range (by omega)]
  have hke : k - 1 + 1 = k := by omega
  simp [hke]

theorem sudokuColNames_get_g {dim gi gj k : Nat} (hgi : gi < dim) (hgj : gj < dim)
    (hk1 : 1 ≤ k) (hk2 : k ≤ dim^2) :
    ((sudokuCols dim).map Prod.fst).get? (2*(dim^2*dim^2) + (gi*dim+gj)*dim^2 + k - 1)
      = some (ColName.g gi gj k) := by
  rw [sudokuColNames_eq]
  have hsub : (gi*dim+gj)*dim^2 + k - 1 < dim * (dim * dim^2) := by
    have h1 : gi*dim + gj < dim*dim := block_idx_lt' hgi hgj
    have h2 : ((gi*dim+gj)+1)*dim^2 ≤ (dim*dim)*dim^2 := Nat.mul_le_mul_right _ (by omega)
    have h2' : ((gi*dim+gj)+1)*dim^2 = (gi*dim+gj)*dim^2 + dim^2 := by ring
    have he : (dim*dim)*dim^2 = dim * (dim * dim^2) := by ring
    omega
  rw [List.get?_append (by
    rw [List.length_append, List.length_append, length_rNames, length_cNames,
      length_gNames]
    omega)]
  rw [List.get?_append_right (by
    rw [List.length_append, length_rNames, length_cNames]
    omega)]
  rw [List.length_append, length_rNames, length_cNames]
  have he : 2*(dim^2*dim^2) + (gi*dim+gj)*dim^2 + k - 1 - (dim^2*dim^2 + dim^2*dim^2)
      = gi * (dim * dim^2) + (gj * dim^2 + (k - 1)) := by
    have h3 : gi * (dim * dim^2) + gj * dim^2 = (gi*dim+gj)*dim^2 := by ring
    omega
  rw [he]
  have hj2 : gj * dim^2 + (k - 1) < dim * dim^2 := by
    have h1 : (gj+1)*dim^2 ≤ dim*dim^2 := Nat.mul_le_mul_right _ (by omega)
    have h2 : (gj+1)*dim^2 = gj*dim^2 + dim^2 := by ring
    omega
  rw [get?_bind_const _ (dim * dim^2) _ gi (gj * dim^2 + (k - 1)) hj2 ?hconst
    (by simpa using hgi)]
  case hconst =>
    intro a _
    rw [length_bind_const _ (dim^2) _ (fun b _ => by simp)]
    simp
  rw [List.get_range]
  rw [get?_bind_const _ (dim^2) _ gj (k-1) (by omega) (fun b _ => by simp)
    (by simpa using hgj)]
  rw [List.get_range, List.get?_map, List.get?_range (by omega)]
  have hke : k - 1 + 1 = k := by omega
  simp [hke]

theorem sudokuColNames_get_e {dim i j : Nat} (hi : i < dim^2) (hj : j < dim^2) :
    ((sudokuCols dim).map Prod.fst).get? (3*(dim^2*dim^2) + i*dim^2 + j)
      = some (ColName.e i j) := by
  rw [sudokuColNames_eq]
  rw [List.get?_append_right (by
    rw [List.length_append, List.length_append, length_rNames, length_cNames,
      length_gNames]
    have he : dim * (dim * dim^2) = dim^2 * dim^2 := by ring
    omega)]
  rw [List.length_append, List.length_append, length_rNames, length_cNames, length_gNames]
  have he : 3*(dim^2*dim^2) + i*dim^2 + j
      - (dim^2*dim^2 + dim^2*dim^2 + dim * (dim * dim^2)) = i * dim^2 + j := by
    have h3 : dim * (dim * dim^2) = dim^2 * dim^2 := by ring
    omega
  rw [he, get?_bind_const _ (dim^2) _ i j hj (fun a _ => by simp) (by simpa using hi)]
  rw [List.get_range, List.get?_map, List.get?_range hj]
  rfl

/-! ### Sudoku row order and dictionaries (C10) -/

theorem length_sudokuTriples (dim : Nat) :
    (sudokuTriples dim).length = dim^2 * (dim^2 * dim^2) := by
  rw [sudokuTriples, length_bind_const _ (dim^2 * dim^2) _ ?_]
  · simp
  · intro a _
    rw [length_bind_const _ (dim^2) _ (fun b _ => by simp)]
    simp

theorem get?_sudokuTriples {dim i j k0 : Nat} (hi : i < dim^2) (hj : j < dim^2)
    (hk : k0 < dim^2) :
    (sudokuTriples dim).get? (i*(dim^2*dim^2) + (j*dim^2 + k0)) = some (i, j, k0+1) := by
  have hj2 : j * dim^2 + k0 < dim^2 * dim^2 := block_idx_lt' hj hk
  rw [sudokuTriples, get?_bind_const _ (dim^2 * dim^2) _ i (j*dim^2 + k0) hj2 ?hconst
    (by simpa using hi)]
  case hconst =>
    intro a _
    rw [length_bind_const _ (dim^2) _ (fun b _ => by simp)]
    simp
  rw [List.get_range]
  rw [get?_bind_const _ (dim^2) _ j k0 hk (fun b _ => by simp) (by simpa using hj)]
  rw [List.get_range, List.get?_map, List.get?_range hk]
  rfl

theorem sudokuTriples_nodup (dim : Nat) : (sudokuTriples dim).Nodup := by
  rw [sudokuTriples]
  refine nodup_bind3 _ _ _ _ ?_
  intro a b c a' b' c' _ _ _ _ _ _ he
  simp only [Prod.mk.injEq] at he
  omega

theorem rowdict_keys_nodup (dim : Nat) : ((sudokuRowdict dim).map Prod.fst).Nodup := by
  rw [rowdict_keys_eq]
  exact sudokuTriples_nodup dim

theorem rowdictFind_eq {dim : Nat} {p : Nat × Nat × Nat} {a : Nat}
    (h : (sudokuTriples dim).get? a = some p) :
    rowdictFind dim p = some a := by
  rw [rowdictFind, find?_assoc_of_nodup _ (rowdict_keys_nodup dim) _ _ ?_]
  · rfl
  · rw [sudokuRowdict]
    refine List.mem_map.mpr ⟨(a, p), ?_, rfl⟩
    exact List.mk_mem_enum_iff_get?.mpr h

theorem lookupdict_keys_nodup (dim : Nat) :
    ((sudokuLookupdict dim).map Prod.fst).Nodup := by
  rw [sudokuLookupdict, List.enum_map_fst]
  exact List.nodup_range _

theorem lookupdictFind_eq {dim : Nat} {a : Nat} {p : Nat × Nat × Nat}
    (h : (sudokuTriples dim).get? a = some p) :
    lookupdictFind dim a = some p := by
  rw [lookupdictFind, find?_assoc_of_nodup _ (lookupdict_keys_nodup dim) _ _ ?_]
  · rfl
  · exact List.mk_mem_enum_iff_get?.mpr h

/-- C10: the dim⁶ rows are appended in lexicographic order of their labels
(i, j, k) with consecutive indices, so the row labelled (i, j, k) has index
i·dim⁴ + j·dim² + (k−1); `rowdict` and `lookupdict` are mutually inverse:
the label maps to the index, the index maps back to the label, and every
appended row index round-trips. -/
theorem sudokuDicts_spec (dim : Nat) :
    (sudokuTriples dim).length = dim^6 ∧
    (∀ i j k : Nat, i < dim^2 → j < dim^2 → 1 ≤ k → k ≤ dim^2 →
      rowdictFind dim (i, j, k) = some (i*dim^4 + j*dim^2 + (k-1)) ∧
      lookupdictFind dim (i*dim^4 + j*dim^2 + (k-1)) = some (i, j, k)) ∧
    (∀ a, a < dim^6 → ∃ p, lookupdictFind dim a = some p ∧ rowdictFind dim p = some a) := by
  have hlen : (sudokuTriples dim).length = dim^6 := by
    rw [length_sudokuTriples]
    ring
  refine ⟨hlen, ?_, ?_⟩
  · intro i j k hi hj hk1 hk2
    have hg : (sudokuTriples dim).get? (i*dim^4 + j*dim^2 + (k-1)) = some (i, j, k) := by
      have he : i*dim^4 + j*dim^2 + (k-1) = i*(dim^2*dim^2) + (j*dim^2 + (k-1)) := by
        have h4 : dim^4 = dim^2*dim^2 := by ring
        rw [h4]
        ring
      rw [he, get?_sudokuTriples hi hj (by omega)]
      have hke : k - 1 + 1 = k := by omega
      rw [hke]
    exact ⟨rowdictFind_eq hg, lookupdictFind_eq hg⟩
  · intro a ha
    have hlt : a < (sudokuTriples dim).length := by rw [hlen]; exact ha
    exact ⟨_, lookupdictFind_eq (List.get?_eq_get hlt), rowdictFind_eq (List.get?_eq_get hlt)⟩

theorem sudokuDicts_spec_witness :
    rowdictFind 1 (0, 0, 1) = some (0*1^4 + 0*1^2 + (1-1)) ∧
    lookupdictFind 1 (0*1^4 + 0*1^2 + (1-1)) = some (0, 0, 1) :=
  (sudokuDicts_spec 1).2.1 0 0 1 (by decide) (by decide) (by decide) (by decide)

/-! ### Sudoku columns and rows (C7) -/

theorem sudokuCols_length (dim : Nat) : (sudokuCols dim).length = 4 * dim^4 := by
  have h := congrArg List.length (sudokuColNames_eq dim)
  rw [List.length_map] at h
  rw [h, List.length_append, List.length_append, List.length_append,
    length_rNames, length_cNames, length_gNames, length_eNames]
  have h1 : dim^4 = dim^2*dim^2 := by ring
  have h2 : dim * (dim * dim^2) = dim^2*dim^2 := by ring
  omega

theorem mapM_cons_eq {α β : Type} (f : α → Option β) (a : α) (l : List α)
    (l' : List β) :
    (a :: l).mapM f = some l' ↔
      ∃ b bs, f a = some b ∧ l.mapM f = some bs ∧ l' = b :: bs := by
  rw [List.mapM_cons]
  constructor
  · intro h
    rcases ha : f a with _ | b
    · rw [ha] at h
      simp at h
    · rw [ha] at h
      rcases hl : l.mapM f with _ | bs
      · rw [hl] at h
        simp at h
      · rw [hl] at h
        simp at h
        exact ⟨b, bs, rfl, rfl, h.symm⟩
  · rintro ⟨b, bs, hb, hbs, rfl⟩
    rw [hb, hbs]
    rfl

theorem mapM_length {α β : Type} (f : α → Option β) :
    ∀ (l : List α) (l' : List β), l.mapM f = some l' → l'.length = l.length := by
  intro l
  induction l with
  | nil =>
    intro l' h
    rw [List.mapM_nil] at h
    have h' : ([] : List β) = l' := Option.some.inj h
    rw [← h']
    rfl
  | cons a l ih =>
    intro l' h
    rcases (mapM_cons_eq f a l l').mp h with ⟨b, bs, _, hbs, rfl⟩
    simp [ih bs hbs]

theorem mapM_get? {α β : Type} (f : α → Option β) :
    ∀ (l : List α) (l' : List β), l.mapM f = some l' →
      ∀ (n : Nat) (a : α), l.get? n = some a → l'.get? n = f a := by
  intro l
  induction l with
  | nil =>
    intro l' _ n a hn
    simp at hn
  | cons x xs ih =>
    intro l' h n a hn
    rcases (mapM_cons_eq f x xs l').mp h with ⟨b, bs, hb, hbs, rfl⟩
    cases n with
    | zero =>
      simp only [List.get?] at hn
      have hxa : x = a := Option.some.inj hn
      subst hxa
      show some b = f x
      rw [hb]
    | succ n =>
      exact ih bs hbs n a hn

theorem sudokuRowFor_eq {dim i j k : Nat} (hi : i < dim^2) (hj : j < dim^2)
    (hk1 : 1 ≤ k) (hk2 : k ≤ dim^2) :
    sudokuRowFor dim (i, j, k) =
      some [i*dim^2 + k - 1, dim^2*dim^2 + j*dim^2 + k - 1,
            2*(dim^2*dim^2) + ((i/dim)*dim + j/dim)*dim^2 + k - 1,
            3*(dim^2*dim^2) + i*dim^2 + j] := by
  have hdim : 1 ≤ dim := by
    by_contra hh
    have h0 : dim = 0 := by omega
    subst h0
    omega
  have hdq : i / dim < dim := Nat.div_lt_of_lt_mul (by
    have h2 : dim^2 = dim * dim := pow_two dim
    omega)
  have hdq' : j / dim < dim := Nat.div_lt_of_lt_mul (by
    have h2 : dim^2 = dim * dim := pow_two dim
    omega)
  simp only [sudokuRowFor, sdictFind_r hi hk1 hk2, sdictFind_c hj hk1 hk2,
    sdictFind_g hdq hdq' hk1 hk2, sdictFind_e hi hj]
  rfl

/-- C7: for every `dim` and valid board, `DLXsudoku.__init__` declares the
4·dim⁴ columns of `sudokuCols dim`, all primary, and appends for every cell
`(i, j)` and candidate `k ∈ [1, dim²]` exactly one row (the labels are
duplicate-free), labelled `(i, j, k)`, covering exactly the four column
indices whose declared names are `('r',i,k)`, `('c',j,k)`,
`('g',i/dim,j/dim,k)` and `('e',i,j)`; the column index assignment depends
only on `dim`. -/
theorem sudokuInit_spec (dim : Nat) (grid : List Char) (inst : SudokuInstance)
    (h : sudokuInit grid dim = some inst) :
    inst.cols = sudokuCols dim ∧
    inst.cols.length = 4 * dim^4 ∧
    (∀ q ∈ sudokuDeclaredCols dim, q.2 = true) ∧
    inst.labels = sudokuTriples dim ∧
    inst.labels.Nodup ∧
    inst.rows.length = inst.labels.length ∧
    ∀ i j k : Nat, i < dim^2 → j < dim^2 → 1 ≤ k → k ≤ dim^2 →
      ∃ n, inst.labels.get? n = some (i, j, k) ∧
        inst.rows.get? n = some [i*dim^2 + k - 1, dim^2*dim^2 + j*dim^2 + k - 1,
          2*(dim^2*dim^2) + ((i/dim)*dim + j/dim)*dim^2 + k - 1,
          3*(dim^2*dim^2) + i*dim^2 + j] ∧
        ((sudokuCols dim).map Prod.fst).get? (i*dim^2 + k - 1)
          = some (ColName.r i k) ∧
        ((sudokuCols dim).map Prod.fst).get? (dim^2*dim^2 + j*dim^2 + k - 1)
          = some (ColName.c j k) ∧
        ((sudokuCols dim).map Prod.fst).get?
            (2*(dim^2*dim^2) + ((i/dim)*dim + j/dim)*dim^2 + k - 1)
          = some (ColName.g (i/dim) (j/dim) k) ∧
        ((sudokuCols dim).map Prod.fst).get? (3*(dim^2*dim^2) + i*dim^2 + j)
          = some (ColName.e i j) := by
  rw [sudokuInit] at h
  rcases hm : (sudokuTriples dim).mapM (sudokuRowFor dim) with _ | rows
  · rw [hm] at h
    simp at h
  · rw [hm, Option.some_bind] at h
    rcases hc : clueLoop dim grid (List.range ((dim^2)^2)) with _ | forced
    · rw [hc] at h
      simp at h
    · rw [hc, Option.map_some'] at h
      have hinst := Option.some.inj h
      subst hinst
      refine ⟨rfl, sudokuCols_length dim, ?_, rfl, sudokuTriples_nodup dim,
        mapM_length _ _ _ hm, ?_⟩
      · intro q hq
        rcases List.mem_map.mp hq with ⟨p, _, rfl⟩
        rfl
      · intro i j k hi hj hk1 hk2
        have hdim : 1 ≤ dim := by
          by_contra hh
          have h0 : dim = 0 := by omega
          subst h0
          simp at hi
        have hdq : i / dim < dim := Nat.div_lt_of_lt_mul (by
          have h2 : dim^2 = dim * dim := pow_two dim
          omega)
        have hdq' : j / dim < dim := Nat.div_lt_of_lt_mul (by
          have h2 : dim^2 = dim * dim := pow_two dim
          omega)
        have hlab : (sudokuTriples dim).get? (i*dim^4 + j*dim^2 + (k-1))
            = some (i, j, k) := by
          have he : i*dim^4 + j*dim^2 + (k-1) = i*(dim^2*dim^2) + (j*dim^2 + (k-1)) := by
            have h4 : dim^4 = dim^2*dim^2 := by ring
            rw [h4]
            ring
          rw [he, get?_sudokuTriples hi hj (by omega)]
          have hke : k - 1 + 1 = k := by omega
          rw [hke]
        refine ⟨i*dim^4 + j*dim^2 + (k-1), hlab, ?_,
          sudokuColNames_get_r hi hk1 hk2, sudokuColNames_get_c hj hk1 hk2,
          sudokuColNames_get_g hdq hdq' hk1 hk2, sudokuColNames_get_e hi hj⟩
        rw [mapM_get? _ _ _ hm _ _ hlab]
        exact sudokuRowFor_eq hi hj hk1 hk2

theorem sudokuInit_spec_witness :
    sudokuInit ['0'] 1 = some ⟨1, sudokuCols 1, [[0, 1, 2, 3]], [(0, 0, 1)], []⟩ ∧
    (sudokuCols 1).length = 4 * 1^4 :=
  ⟨by decide,
   (sudokuInit_spec 1 ['0'] ⟨1, sudokuCols 1, [[0, 1, 2, 3]], [(0, 0, 1)], []⟩
     (by decide)).2.1⟩

/-! ### Solution decoding (C9) -/

theorem cellVal_set_self {grid : List (List Nat)} {row : List Nat} {i j v : Nat}
    (hi : grid.get? i = some row) (hj : j < row.length) :
    cellVal (grid.set i (row.set j v)) i j = v := by
  rw [cellVal, List.get?_set_eq, hi]
  show ((row.set j v).get? j).getD 0 = v
  rw [List.get?_set_eq, List.get?_eq_get hj]
  rfl

theorem cellVal_set_other {grid : List (List Nat)} {row : List Nat}
    {i j v i' j' : Nat} (hi : grid.get? i = some row) (h : ¬(i = i' ∧ j = j')) :
    cellVal (grid.set i (row.set j v)) i' j' = cellVal grid i' j' := by
  by_cases hii : i = i'
  · subst hii
    have hjj : j ≠ j' := fun hjy => h ⟨rfl, hjy⟩
    rw [cellVal, cellVal, List.get?_set_eq, hi]
    show ((row.set j v).get? j').getD 0 = (row.get? j').getD 0
    rw [List.get?_set_ne _ _ hjj]
  · rw [cellVal, cellVal, List.get?_set_ne _ _ hii]

theorem cellVal_replicate (m i j : Nat) :
    cellVal (List.replicate m (List.replicate m 0)) i j = 0 := by
  rcases Nat.lt_or_ge i m with hi | hi
  · have hout : (List.replicate m (List.replicate m 0)).get? i
        = some (List.replicate m 0) := by
      rw [List.get?_eq_get
        (show i < (List.replicate m (List.replicate m 0)).length by simpa using hi)]
      rw [List.get_replicate]
    rw [cellVal, hout]
    show ((List.replicate m 0).get? j).getD 0 = 0
    rcases hj : (List.replicate m 0).get? j with _ | x
    · rfl
    · have hx : x = 0 := List.eq_of_mem_replicate (List.get?_mem hj)
      rw [hx]
      rfl
  · have hout : (List.replicate m (List.replicate m 0)).get? i = none :=
      List.get?_eq_none.mpr (by simpa using hi)
    rw [cellVal, hout]
    rfl

theorem solGridLoop (labels : List (Nat × Nat × Nat)) (m : Nat) :
    ∀ (sol : List Nat) (grid : List (List Nat)),
      grid.length = m →
      (∀ row ∈ grid, row.length = m) →
      (∀ a ∈ sol, ∃ p : Nat × Nat × Nat, labels.get? a = some p ∧
        p.1 < m ∧ p.2.1 < m) →
      ∃ g, sol.foldlM (solStep labels) grid = some g ∧
        g.length = m ∧
        (∀ row ∈ g, row.length = m) ∧
        (∀ i j : Nat,
          (∀ a ∈ sol, ∀ p : Nat × Nat × Nat, labels.get? a = some p →
            ¬(p.1 = i ∧ p.2.1 = j)) →
          cellVal g i j = cellVal grid i j) ∧
        (∀ a ∈ sol, ∀ p : Nat × Nat × Nat, labels.get? a = some p →
          (∀ b ∈ sol, ∀ q : Nat × Nat × Nat, labels.get? b = some q →
            q.1 = p.1 → q.2.1 = p.2.1 → q.2.2 = p.2.2) →
          cellVal g p.1 p.2.1 = p.2.2) := by
  intro sol
  induction sol with
  | nil =>
    intro grid hglen hgrows _
    exact ⟨grid, rfl, hglen, hgrows, fun i j _ => rfl,
      fun a ha => absurd ha (List.not_mem_nil a)⟩
  | cons a rest ih =>
    intro grid hglen hgrows hall
    obtain ⟨p, hp, hp1, hp2⟩ := hall a (List.mem_cons_self a rest)
    have hp1' : p.1 < grid.length := by omega
    have hrow : grid.get? p.1 = some (grid.get ⟨p.1, hp1'⟩) := List.get?_eq_get hp1'
    have hrowmem : grid.get ⟨p.1, hp1'⟩ ∈ grid := List.get_mem grid p.1 hp1'
    have hrowlen : (grid.get ⟨p.1, hp1'⟩).length = m := hgrows _ hrowmem
    obtain ⟨g, hg, h1, h2, h3, h4⟩ :=
      ih (grid.set p.1 ((grid.get ⟨p.1, hp1'⟩).set p.2.1 p.2.2))
        (by rw [List.length_set]; exact hglen)
        (by
          intro r hr
          rcases List.mem_or_eq_of_mem_set hr with hmem | heq
          · exact hgrows r hmem
          · rw [heq, List.length_set]
            exact hrowlen)
        (fun b hb => hall b (List.mem_cons_of_mem a hb))
    have hf : solStep labels grid a
        = some (grid.set p.1 ((grid.get ⟨p.1, hp1'⟩).set p.2.1 p.2.2)) := by
      simp only [solStep, hp, Option.some_bind, hrow, Option.map_some']
    refine ⟨g, ?_, h1, h2, ?_, ?_⟩
    · rw [List.foldlM_cons, hf]
      exact hg
    · intro i j hnone
      rw [h3 i j (fun b hb q hq => hnone b (List.mem_cons_of_mem a hb) q hq),
        cellVal_set_other hrow (hnone a (List.mem_cons_self a rest) p hp)]
    · intro a' ha' p' hp' hsame'
      rcases List.mem_cons.mp ha' with ha'' | ha''
      · subst ha''
        have hpp : p = p' := Option.some.inj (hp.symm.trans hp')
        obtain rfl := hpp
        by_cases hex : ∃ b ∈ rest, ∃ q : Nat × Nat × Nat, labels.get? b = some q ∧
            q.1 = p.1 ∧ q.2.1 = p.2.1
        · obtain ⟨b, hb, q, hq, hq1, hq2⟩ := hex
          have hqv : q.2.2 = p.2.2 :=
            hsame' b (List.mem_cons_of_mem a' hb) q hq hq1 hq2
          have hcell := h4 b hb q hq (fun c hc r hr hr1 hr2 => by
            have h5 := hsame' c (List.mem_cons_of_mem a' hc) r hr
              (hr1.trans hq1) (hr2.trans hq2)
            rw [h5, hqv])
          rw [hq1, hq2] at hcell
          rw [hcell, hqv]
        · have hnone : ∀ b ∈ rest, ∀ q : Nat × Nat × Nat, labels.get? b = some q →
              ¬(q.1 = p.1 ∧ q.2.1 = p.2.1) := by
            intro b hb q hq hcon
            exact hex ⟨b, hb, q, hq, hcon.1, hcon.2⟩
          rw [h3 p.1 p.2.1 hnone, cellVal_set_self hrow (by omega)]
      · exact h4 a' ha'' p' hp' (fun c hc r hr hr1 hr2 =>
          hsame' c (List.mem_cons_of_mem a hc) r hr hr1 hr2)

/-- C9: `createSolutionGrid(sol)` starts from a dim²×dim² grid of blanks and
sets `grid[i][j] = k` for every selected row's label `(i, j, k)`; provided
every selected row has an in-range label and no cell receives two different
values (guaranteed by the `('e',i,j)` exact-cover columns for genuine DLX
solutions), the result is a dim²×dim² grid with `grid[i][j] = k` for every
selected label and 0 in every cell no selected label covers. -/
theorem createSolutionGrid_spec (inst : SudokuInstance) (sol : List Nat)
    (hlab : ∀ a ∈ sol, ∃ p : Nat × Nat × Nat, inst.labels.get? a = some p ∧
      p.1 < inst.dim^2 ∧ p.2.1 < inst.dim^2)
    (hone : ∀ a ∈ sol, ∀ b ∈ sol, ∀ p q : Nat × Nat × Nat,
      inst.labels.get? a = some p → inst.labels.get? b = some q →
      p.1 = q.1 → p.2.1 = q.2.1 → p = q) :
    ∃ g, createSolutionGrid inst sol = some g ∧
      g.length = inst.dim^2 ∧
      (∀ row ∈ g, row.length = inst.dim^2) ∧
      (∀ a ∈ sol, ∀ p : Nat × Nat × Nat, inst.labels.get? a = some p →
        cellVal g p.1 p.2.1 = p.2.2) ∧
      (∀ i j : Nat,
        (∀ a ∈ sol, ∀ p : Nat × Nat × Nat, inst.labels.get? a = some p →
          ¬(p.1 = i ∧ p.2.1 = j)) →
        cellVal g i j = 0) := by
  obtain ⟨g, hg, h1, h2, h3, h4⟩ := solGridLoop inst.labels (inst.dim^2) sol
    (List.replicate (inst.dim^2) (List.replicate (inst.dim^2) 0))
    (List.length_replicate _ _)
    (fun row hr => by
      rw [List.eq_of_mem_replicate hr]
      exact List.length_replicate _ _)
    hlab
  refine ⟨g, hg, h1, h2, ?_, ?_⟩
  · intro a ha p hp
    refine h4 a ha p hp ?_
    intro b hb q hq hq1 hq2
    have hqp : q = p := hone b hb a ha q p hq hp hq1 hq2
    rw [hqp]
  · intro i j hnone
    rw [h3 i j hnone, cellVal_replicate]

theorem createSolutionGrid_spec_witness :
    ∃ g, createSolutionGrid ⟨1, sudokuCols 1, [[0, 1, 2, 3]], [(0, 0, 1)], []⟩ [0]
        = some g ∧
      g.length = 1^2 ∧
      (∀ row ∈ g, row.length = 1^2) ∧
      (∀ a ∈ [0], ∀ p : Nat × Nat × Nat,
        [((0:Nat), (0:Nat), (1:Nat))].get? a = some p →
        cellVal g p.1 p.2.1 = p.2.2) ∧
      (∀ i j : Nat,
        (∀ a ∈ [0], ∀ p : Nat × Nat × Nat,
          [((0:Nat), (0:Nat), (1:Nat))].get? a = some p →
          ¬(p.1 = i ∧ p.2.1 = j)) →
        cellVal g i j = 0) :=
  createSolutionGrid_spec ⟨1, sudokuCols 1, [[0, 1, 2, 3]], [(0, 0, 1)], []⟩ [0]
    (by
      intro a ha
      have ha' : a = 0 := by simpa using ha
      subst ha'
      exact ⟨(0, 0, 1), rfl, by decide, by decide⟩)
    (by
      intro a ha b hb p q hp hq _ _
      have ha' : a = 0 := by simpa using ha
      have hb' : b = 0 := by simpa using hb
      subst ha'
      subst hb'
      have hp' : ((0:Nat), (0:Nat), (1:Nat)) = p := Option.some.inj hp
      have hq' : ((0:Nat), (0:Nat), (1:Nat)) = q := Option.some.inj hq
      rw [← hp', ← hq'])

end DlxPython
